import Mathlib

/-!
Verification of the dbtpl row-literal codec (`row_marshaler` package) and the
pgx template SQL/file-name helpers (`templates/pgx/pgx.go`).

Go strings are modelled as byte lists (`List Nat`); the row codec in the source
indexes and writes raw bytes, so this is the faithful representation.  Machine
integers are modelled as `Int`/`Nat` with explicit range checks where the Go
standard library performs them.  Whitespace predicates are modelled at the byte
level: `unicode.IsSpace(rune(b))` for a byte `b < 256` holds exactly for
9..13, 32, 0x85 and 0xA0; `strings.TrimSpace` trims whole runes, which for the
ASCII inputs reaching it here coincides with trimming the ASCII space set.
-/

set_option maxRecDepth 4000

/-- Bytes of a Lean string literal (all literals used are ASCII). -/
def strBytes (s : String) : List Nat := s.toList.map Char.toNat

/-- `unicode.IsSpace(rune(b))` for a single byte `b` (Latin-1 range). -/
def isSpaceB (b : Nat) : Bool :=
  b = 9 || b = 10 || b = 11 || b = 12 || b = 13 || b = 32 || b = 133 || b = 160

/-- ASCII whitespace, the set `strings.TrimSpace` removes on ASCII input. -/
def isSpaceASCII (b : Nat) : Bool :=
  b = 9 || b = 10 || b = 11 || b = 12 || b = 13 || b = 32

/-- `strings.TrimSpace` on ASCII input: drop leading and trailing whitespace. -/
def trimSpace (s : List Nat) : List Nat :=
  ((s.dropWhile isSpaceASCII).reverse.dropWhile isSpaceASCII).reverse

/-- ASCII lower-casing of one byte (`strings.ToLower` on ASCII). -/
def lowerB (b : Nat) : Nat := if 65 ≤ b ∧ b ≤ 90 then b + 32 else b

/-- `strings.EqualFold(value, "null")` at the byte level. -/
def eqFoldNull (s : List Nat) : Bool := s.map lowerB = strBytes "null"

/-- Decimal digits of a natural number, most significant first
(the digit sequence `strconv.FormatInt`/`FormatUint` emits). -/
def natDigits (n : Nat) : List Nat :=
  if _h : n < 10 then [n] else natDigits (n / 10) ++ [n % 10]
  termination_by n
  decreasing_by
    exact Nat.div_lt_self (by omega) (by omega)

/-- `strconv.FormatUint(n, 10)` as bytes. -/
def natToBytes (n : Nat) : List Nat := (natDigits n).map (· + 48)

/-- `strconv.FormatInt(n, 10)` as bytes. -/
def intToBytes (n : Int) : List Nat :=
  if n < 0 then 45 :: natToBytes (-n).toNat else natToBytes n.toNat

/-- Value of one decimal digit byte, if it is a digit. -/
def digitOfByte (b : Nat) : Option Nat :=
  if 48 ≤ b ∧ b ≤ 57 then some (b - 48) else none

/-- Parse a nonempty all-digit byte sequence to its value (base 10). -/
def parseDigits : List Nat → Option Nat
  | [] => none
  | bs => go bs 0
where go : List Nat → Nat → Option Nat
  | [], acc => some acc
  | b :: rest, acc =>
    match digitOfByte b with
    | none => none
    | some d => go rest (acc * 10 + d)

/-- `strconv.ParseInt(s, 10, bitSize)`: optional sign, digits, range check.
Range errors are collapsed into `none` (Go returns a non-nil error there). -/
def goParseInt (s : List Nat) (bitSize : Nat) : Option Int :=
  let neg : Bool := s.head? = some 45
  let digits := if s.head? = some 43 || s.head? = some 45 then s.tail else s
  match parseDigits digits with
  | none => none
  | some v =>
    if neg then
      if (v : Int) ≤ 2 ^ (bitSize - 1) then some (-(v : Int)) else none
    else
      if (v : Int) ≤ 2 ^ (bitSize - 1) - 1 then some (v : Int) else none

/-- `strconv.ParseUint(s, 10, bitSize)`: digits only (no sign), range check. -/
def goParseUint (s : List Nat) (bitSize : Nat) : Option Nat :=
  match parseDigits s with
  | none => none
  | some v => if v < 2 ^ bitSize then some v else none

/-! ## Errors (`errors.go`) -/

/-- `ParseError` from `errors.go` (input context omitted; the message text is
paraphrased without punctuation, the source wording is noted per use site). -/
structure ParseErr where
  pos : Nat
  msg : String
  deriving DecidableEq

/-- The error variants the codec surfaces, per `errors.go`. -/
inductive UErr where
  | parse (e : ParseErr)
  | typeMismatch (fieldName : String) (fieldPos : Nat) (value : List Nat)
      (expected : String) (reason : String)
  | validation (fieldName : String) (tagValue : List Nat) (msg : String)
  | marshalFailed (fieldName : String) (fieldPos : Nat) (reason : String)
  | nilPointer
  | notStruct
  | emptyInput
  deriving DecidableEq

/-! ## Row-literal lexer (`types.go`, second half) -/

/-- `Token` from `types.go`. -/
structure Token where
  value : List Nat
  rawValue : List Nat
  quoted : Bool
  position : Nat
  deriving DecidableEq

/-- Decoding of one escaped character inside a quoted value
(`parseQuotedString`, the `escaped` switch): `\n \r \t \\ \" \, \0` decode,
unknown escapes keep backslash and character. -/
def escDecode (c : Nat) : List Nat :=
  if c = 110 then [10]
  else if c = 114 then [13]
  else if c = 116 then [9]
  else if c = 92 then [92]
  else if c = 34 then [34]
  else if c = 44 then [44]
  else if c = 48 then [0]
  else [92, c]

/-- Body scan of `parseQuotedString`: `rem` is the input after the opening
quote; returns the decoded value and the number of bytes consumed including
the closing quote, or `none` when the quote is unclosed. -/
def pqsLoop : List Nat → Option (List Nat × Nat)
  | [] => none
  | b :: rest =>
    if b = 92 then
      match rest with
      | [] => none
      | c :: rest' =>
        match pqsLoop rest' with
        | none => none
        | some (v, k) => some (escDecode c ++ v, k + 2)
    else if b = 34 then
      match rest with
      | c :: rest' =>
        if c = 34 then
          match pqsLoop rest' with
          | none => none
          | some (v, k) => some (34 :: v, k + 2)
        else some ([], 1)
      | [] => some ([], 1)
    else
      match pqsLoop rest with
      | none => none
      | some (v, k) => some (b :: v, k + 1)

/-- `parseQuotedString`: `rem` is the input from the opening quote on, `abs`
its absolute byte offset in the original input. Returns the token and the
number of bytes consumed. -/
def parseQuotedString (rem : List Nat) (abs : Nat) : Except ParseErr (Token × Nat) :=
  if rem.head? = some 34 then
    match pqsLoop rem.tail with
    | none => .error ⟨abs, "unclosed quoted string"⟩
    | some (v, k) =>
      .ok ({ value := v, rawValue := rem.take (k + 1), quoted := true, position := abs }, k + 1)
  else .error ⟨abs, "expected opening quote"⟩

/-- The bytes ending an unquoted value: `,`, `)` or whitespace. -/
def stopB (b : Nat) : Bool := b = 44 || b = 41 || isSpaceB b

/-- Body scan of `parseUnquotedValue`: take bytes until a top-level `,`, `)`
or whitespace; an interior quote is an error carrying its relative offset. -/
def puvLoop : List Nat → Except Nat (List Nat)
  | [] => .ok []
  | b :: rest =>
    if stopB b then .ok []
    else if b = 34 then .error 0
    else
      match puvLoop rest with
      | .error i => .error (i + 1)
      | .ok v => .ok (b :: v)

/-- `parseUnquotedValue`: `rem` from the token start, `abs` its absolute
offset. The decoded value is the raw slice passed through `strings.TrimSpace`
(the source wording: "unexpected quote in unquoted value"). -/
def parseUnquotedValue (rem : List Nat) (abs : Nat) : Except ParseErr (Token × Nat) :=
  match puvLoop rem with
  | .error i => .error ⟨abs + i, "unexpected quote in unquoted value"⟩
  | .ok v =>
    .ok ({ value := trimSpace v, rawValue := v, quoted := false, position := abs }, v.length)

/-- One token dispatch of the `parseTokens` loop body. -/
def parseOneToken (rem : List Nat) (abs : Nat) : Except ParseErr (Token × Nat) :=
  if rem.head? = some 34 then parseQuotedString rem abs
  else parseUnquotedValue rem abs

/-- The `parseTokens` loop. `fuel` bounds the iteration count; every
iteration consumes at least one byte, so `rem.length + 1` fuel always
suffices (the fuel-exhaustion branch is unreachable from `parseTokens`).
Source wording of the separator error: "expected ',' or end of row". -/
def parseTokensAux (fuel : Nat) (rem : List Nat) (abs : Nat) (acc : List Token) :
    Except ParseErr (List Token) :=
  match fuel with
  | 0 => .error ⟨abs, "fuel exhausted"⟩
  | fuel' + 1 =>
    let rem1 := rem.dropWhile isSpaceB
    let abs1 := abs + (rem.takeWhile isSpaceB).length
    if rem1 = [] then .ok acc
    else
      match parseOneToken rem1 abs1 with
      | .error e => .error e
      | .ok (tok, k) =>
        let rem2 := rem1.drop k
        let abs2 := abs1 + k
        let rem3 := rem2.dropWhile isSpaceB
        let abs3 := abs2 + (rem2.takeWhile isSpaceB).length
        if rem3 = [] then .ok (acc ++ [tok])
        else if rem3.head? = some 44 then
          parseTokensAux fuel' rem3.tail (abs3 + 1) (acc ++ [tok])
        else .error ⟨abs3, "expected comma or end of row"⟩

/-- `parseTokens(content, startPos)`. -/
def parseTokens (content : List Nat) (startPos : Nat) : Except ParseErr (List Token) :=
  parseTokensAux (content.length + 1) content startPos []

/-- `ParseRowLiteral` from `types.go`: trim, check the surrounding
parentheses, then scan the content starting at absolute position 1. -/
def ParseRowLiteral (input : List Nat) : Except UErr (List Token) :=
  let inp := trimSpace input
  if inp = [] then .error .emptyInput
  else if inp.head? ≠ some 40 then .error (.parse ⟨0, "expected opening parenthesis"⟩)
  else if inp.getLast? ≠ some 41 then
    .error (.parse ⟨inp.length - 1, "expected closing parenthesis"⟩)
  else
    let content := (inp.drop 1).dropLast
    if trimSpace content = [] then .ok []
    else
      match parseTokens content 1 with
      | .error e => .error (.parse e)
      | .ok toks => .ok toks

/-! ## Row-literal writer (`types.go`) -/

/-- Per-byte escaping of `EscapeString`. -/
def escByte (b : Nat) : List Nat :=
  if b = 34 then [92, 34]
  else if b = 92 then [92, 92]
  else if b = 10 then [92, 110]
  else if b = 13 then [92, 114]
  else if b = 9 then [92, 116]
  else if b = 0 then [92, 48]
  else [b]

/-- `EscapeString`: wrap in quotes, escape `" \ \n \r \t NUL`. -/
def EscapeString (s : List Nat) : List Nat :=
  34 :: (s.flatMap escByte ++ [34])

/-- `BuildRowLiteral`: join the pre-formatted values with commas inside
parentheses. -/
def BuildRowLiteral (values : List (List Nat)) : List Nat :=
  40 :: (List.intercalate [44] values ++ [41])

/-! ## Value universe

The theorems below are stated over records whose fields have the types
`string`, `int64`, `bool` and `sql.NullString`.  Each `ConvertToType` /
`FormatValue` branch for these types is translated from the corresponding
branch of `types.go`; the branches for the other Go kinds (pointers, other
widths, floats, time, slices, structs) are outside this universe and are
studied separately for claim C5. -/

inductive GoType where
  | tString
  | tInt64
  | tBool
  | tNullString
  deriving DecidableEq

inductive GoVal where
  | vString (s : List Nat)
  | vInt64 (n : Int)
  | vBool (b : Bool)
  | vNullString (valid : Bool) (s : List Nat)
  deriving DecidableEq

/-- The zero value of a field type (`reflect.Zero`). -/
def zeroOf : GoType → GoVal
  | .tString => .vString []
  | .tInt64 => .vInt64 0
  | .tBool => .vBool false
  | .tNullString => .vNullString false []

/-- Whether a value inhabits a field type. -/
def hasType : GoVal → GoType → Bool
  | .vString _, .tString => true
  | .vInt64 _, .tInt64 => true
  | .vBool _, .tBool => true
  | .vNullString _ _, .tNullString => true
  | _, _ => false

/-- `IsZeroValue` from `types.go`: none of the universe types is a pointer /
interface / slice kind, so this is `reflect.Value.IsZero`. -/
def IsZeroValue : GoVal → Bool
  | .vString s => s = []
  | .vInt64 n => n = 0
  | .vBool b => b = false
  | .vNullString valid s => valid = false && s = []

/-- `convertToBool` from `types.go`: empty is `false`; otherwise lower-case,
trim, and match the accepted spellings. -/
def convertToBool (value : List Nat) (fieldName : String) (fieldPos : Nat) :
    Except UErr Bool :=
  if value = [] then .ok false
  else
    let v := trimSpace (value.map lowerB)
    if v = strBytes "true" || v = strBytes "1" || v = strBytes "yes" ||
        v = strBytes "on" || v = strBytes "t" || v = strBytes "y" then .ok true
    else if v = strBytes "false" || v = strBytes "0" || v = strBytes "no" ||
        v = strBytes "off" || v = strBytes "f" || v = strBytes "n" then .ok false
    else .error (.typeMismatch fieldName fieldPos v "bool" "must be true/false")

/-- `convertToInt` from `types.go`, for a given bit size: empty is the zero
value; otherwise trim and `strconv.ParseInt`. -/
def convertToInt (value : List Nat) (bitSize : Nat) (typeName : String)
    (fieldName : String) (fieldPos : Nat) : Except UErr Int :=
  if value = [] then .ok 0
  else
    match goParseInt (trimSpace value) bitSize with
    | some n => .ok n
    | none =>
      .error (.typeMismatch fieldName fieldPos (trimSpace value) typeName "parse int failed")

/-- `convertToUint` from `types.go`, for a given bit size. -/
def convertToUint (value : List Nat) (bitSize : Nat) (typeName : String)
    (fieldName : String) (fieldPos : Nat) : Except UErr Nat :=
  if value = [] then .ok 0
  else
    match goParseUint (trimSpace value) bitSize with
    | some n => .ok n
    | none =>
      .error (.typeMismatch fieldName fieldPos (trimSpace value) typeName "parse uint failed")

/-- `ConvertToType` from `types.go`, restricted to the value universe.  The
`sql.NullString` case is the corresponding `convertSQLNull` branch (checked
before the kind switch); the others are the kind-switch branches. -/
def ConvertToType (value : List Nat) (t : GoType) (fieldName : String)
    (fieldPos : Nat) : Except UErr GoVal :=
  match t with
  | .tNullString =>
    if value = [] || eqFoldNull value then .ok (.vNullString false [])
    else .ok (.vNullString true value)
  | .tString => .ok (.vString value)
  | .tInt64 =>
    match convertToInt value 64 "int64" fieldName fieldPos with
    | .error e => .error e
    | .ok n => .ok (.vInt64 n)
  | .tBool =>
    match convertToBool value fieldName fieldPos with
    | .error e => .error e
    | .ok b => .ok (.vBool b)

/-- `FormatValue` from `types.go`, restricted to the value universe.  The
`sql.NullString` case is the `formatSQLNull` branch (handled before the
`driver.Valuer` check, as the source comments note); strings are escaped,
integers and booleans are spelled without quotes.  None of these branches can
return an error. -/
def FormatValue : GoVal → List Nat
  | .vString s => EscapeString s
  | .vInt64 n => intToBytes n
  | .vBool b => if b then strBytes "true" else strBytes "false"
  | .vNullString valid s =>
    if valid then EscapeString s else strBytes "NULL"

/-! ## Tag model (`tags.go`) -/

/-- `TagOptions` from `tags.go`.  `position` is stored as `Nat`; `ParseTag`
rejects positions below 1 before storing, so no information is lost. -/
structure TagOptions where
  position : Nat := 0
  omitEmpty : Bool := false
  required : Bool := false
  dflt : List Nat := []
  hasDefault : Bool := false
  deriving DecidableEq

/-- `FieldInfo` from `tags.go` (the `HasTag` flag is always true for entries
of the fields map and is omitted). -/
structure FieldInfo where
  name : String
  index : Nat
  typ : GoType
  options : TagOptions
  deriving DecidableEq

/-- A struct field as the reflection loop of `GetStructFields` sees it:
name, exportedness, the `row` tag if the key is present, and the field type. -/
structure RawField where
  name : String
  exported : Bool
  tag : Option (List Nat)
  typ : GoType
  deriving DecidableEq

/-- A Go type as `GetStructFields` inspects it: pointer, struct, or other. -/
inductive RType where
  | ptr (t : RType)
  | strct (fs : List RawField)
  | other
  deriving DecidableEq

/-- `splitTagParts`: split on commas, respecting quotes and backslash
escapes; a trailing empty segment is dropped. -/
def splitTagParts (tag : List Nat) : List (List Nat) :=
  go tag false false [] []
where
  go : List Nat → Bool → Bool → List Nat → List (List Nat) → List (List Nat)
  | [], _, _, current, parts =>
    if current = [] then parts else parts ++ [current]
  | r :: rest, inQuote, escaped, current, parts =>
    if escaped then go rest inQuote false (current ++ [r]) parts
    else if r = 92 then go rest inQuote true (current ++ [r]) parts
    else if r = 34 then go rest (!inQuote) false (current ++ [r]) parts
    else if r = 44 then
      if inQuote then go rest inQuote false (current ++ [r]) parts
      else go rest inQuote false [] (parts ++ [current])
    else go rest inQuote false (current ++ [r]) parts

/-- `strconv.Atoi` (= `ParseInt` with the native bit size; positions are
small, the 64-bit range check is never reached for inputs of interest). -/
def goAtoi (s : List Nat) : Option Int := goParseInt s 64

/-- Position of the first `=` byte in a part (`strings.Index(part, "=")`). -/
def idxEq (part : List Nat) : Option Nat := part.indexOf? 61

/-- The option-parsing loop of `ParseTag` over the remaining parts,
threading the options record. -/
def parseTagOpts (tagValue : List Nat) : List (List Nat) → TagOptions →
    Except UErr TagOptions
  | [], opts => .ok opts
  | part0 :: rest, opts =>
    let part := trimSpace part0
    if part = [] then parseTagOpts tagValue rest opts
    else
      match idxEq part with
      | some i =>
        let key := trimSpace (part.take i)
        let value := trimSpace (part.drop (i + 1))
        if key = strBytes "default" then
          parseTagOpts tagValue rest { opts with dflt := value, hasDefault := true }
        else .error (.validation "" tagValue "unknown option")
      | none =>
        if part = strBytes "omitempty" then
          parseTagOpts tagValue rest { opts with omitEmpty := true }
        else if part = strBytes "required" then
          parseTagOpts tagValue rest { opts with required := true }
        else .error (.validation "" tagValue "unknown option")

/-- `ParseTag` from `tags.go`. -/
def ParseTag (tagValue : List Nat) : Except UErr TagOptions :=
  if tagValue = [] || tagValue = strBytes "-" then .ok {}
  else
    let parts := splitTagParts tagValue
    match parts with
    | [] => .error (.validation "" tagValue "empty tag value")
    | p0 :: rest =>
      match goAtoi (trimSpace p0) with
      | none => .error (.validation "" tagValue "position must be a positive integer")
      | some pos =>
        if pos < 1 then
          .error (.validation "" tagValue "position must be at least 1")
        else
          match parseTagOpts tagValue rest { position := pos.toNat } with
          | .error e => .error e
          | .ok opts =>
            if opts.required && opts.omitEmpty then
              .error (.validation "" tagValue "conflicting options required and omitempty")
            else if opts.required && opts.hasDefault then
              .error (.validation "" tagValue "conflicting options required and default")
            else .ok opts

/-- The fields map of `GetStructFields`, as an association list from position
to `FieldInfo` in field-declaration order (positions are unique by
construction, the loop rejects duplicates). -/
abbrev FieldsMap := List (Nat × FieldInfo)

/-- Position lookup in the fields map. -/
def lookupF (fl : FieldsMap) (pos : Nat) : Option FieldInfo :=
  (fl.find? (fun e => e.1 = pos)).map (·.2)

/-- The field loop of `GetStructFields`: `i` is the reflection field index. -/
def structFieldsLoop (tagValue : Option (List Nat) → Option (List Nat)) :
    List RawField → Nat → FieldsMap → Except UErr FieldsMap
  | [], _, acc => .ok acc
  | f :: rest, i, acc =>
    if !f.exported then structFieldsLoop tagValue rest (i + 1) acc
    else
      match tagValue f.tag with
      | none => structFieldsLoop tagValue rest (i + 1) acc
      | some tv =>
        match ParseTag tv with
        | .error e =>
          -- the source patches the field name into a ValidationError
          match e with
          | .validation _ tag msg => .error (.validation f.name tag msg)
          | e' => .error e'
        | .ok opts =>
          if (lookupF acc opts.position).isSome then
            .error (.validation f.name tv "duplicate position")
          else
            structFieldsLoop tagValue rest (i + 1)
              (acc ++ [(opts.position, ⟨f.name, i, f.typ, opts⟩)])

/-- `Tag.Lookup("row")` followed by the `tagValue == "-"` skip. -/
def rowTagOf (tag : Option (List Nat)) : Option (List Nat) :=
  match tag with
  | none => none
  | some tv => if tv = strBytes "-" then none else some tv

/-- `GetStructFields` from `tags.go`: one pointer dereference, a kind check,
then the field loop. -/
def GetStructFields : RType → Except UErr FieldsMap
  | .strct fs => structFieldsLoop rowTagOf fs 0 []
  | .ptr (.strct fs) => structFieldsLoop rowTagOf fs 0 []
  | _ => .error .notStruct

/-- `GetMaxPosition` from `tags.go`. -/
def GetMaxPosition (fl : FieldsMap) : Nat :=
  fl.foldl (fun m e => if e.1 > m then e.1 else m) 0

/-- `GetSortedPositions` from `tags.go`: positions `1..max` that are present. -/
def GetSortedPositions (fl : FieldsMap) : List Nat :=
  if fl = [] then []
  else (List.range' 1 (GetMaxPosition fl)).filter (fun p => (lookupF fl p).isSome)

/-! ## Marshaler (`marshaler.go`) -/

/-- Read a struct field by reflection index (`rv.Field(i)`); the index is
always in range when the value list matches the struct type. -/
def getVal (vals : List GoVal) (i : Nat) : GoVal := vals.getD i (.vString [])

/-- The placeholder loop of `Marshal`: for positions `lo ≤ i < hi` skipped
between two included positions, emit `""` unless the position holds a field
that was itself skipped by `omitempty`. -/
def gapFill (fl : FieldsMap) (vals : List GoVal) (lo hi : Nat) : List (List Nat) :=
  (List.range' lo (hi - lo)).foldl
    (fun acc i =>
      match lookupF fl i with
      | some fi =>
        if fi.options.omitEmpty && IsZeroValue (getVal vals fi.index) then acc
        else acc ++ [[34, 34]]
      | none => acc ++ [[34, 34]])
    []

/-- The main position loop of `Marshal`.  `FormatValue` cannot fail on the
value universe, so the `MarshalError` path is vacuous here. -/
def marshalLoop (fl : FieldsMap) (vals : List GoVal) :
    List Nat → Nat → List (List Nat) → List (List Nat)
  | [], _, values => values
  | pos :: rest, lastInc, values =>
    match lookupF fl pos with
    | none => marshalLoop fl vals rest lastInc values
    | some fi =>
      let fv := getVal vals fi.index
      if fi.options.omitEmpty && IsZeroValue fv then
        marshalLoop fl vals rest lastInc values
      else
        let values1 := values ++ gapFill fl vals (lastInc + 1) pos
        marshalLoop fl vals rest pos (values1 ++ [FormatValue fv])

/-- `Marshal` from `marshaler.go`, for a struct value given as its field
value list (the nil / non-struct guards precede this in the source). -/
def Marshal (t : RType) (vals : List GoVal) : Except UErr (List Nat) :=
  match GetStructFields t with
  | .error e => .error e
  | .ok fl =>
    if fl = [] then .ok (strBytes "()")
    else .ok (BuildRowLiteral (marshalLoop fl vals (GetSortedPositions fl) 0 []))

/-- The value string the token loop of `Unmarshal` hands to `ConvertToType`:
the declared default when the token is empty and a default exists, otherwise
the token text (the `valueStr` computation of `marshaler.go`). -/
def selOf (tok : Token) (fi : FieldInfo) : List Nat :=
  if tok.value = [] && fi.options.hasDefault then fi.options.dflt else tok.value

/-- The token-assignment loop of `Unmarshal` (`for i, token := range tokens`).
Mutation of the target struct is modelled by threading the field value list;
on a conversion error the list mutated so far is returned with the error,
exactly as the Go struct is left partially updated. -/
def pass1 (fl : FieldsMap) : List Token → Nat → List GoVal →
    List GoVal × Option UErr
  | [], _, vals => (vals, none)
  | tok :: rest, i, vals =>
    let pos := i + 1
    match lookupF fl pos with
    | none => pass1 fl rest (i + 1) vals
    | some fi =>
      match ConvertToType (selOf tok fi) fi.typ fi.name pos with
      | .error e => (vals, some e)
      | .ok v => pass1 fl rest (i + 1) (vals.set fi.index v)

/-- The defaults-for-missing-fields loop of `Unmarshal` (`for pos, field :=
range fields`).  Go map iteration order is unspecified; the entries update
distinct indices, so the final state does not depend on the order, and the
map is iterated here in field-declaration order. -/
def pass2 (tokCount : Nat) : FieldsMap → List GoVal → List GoVal × Option UErr
  | [], vals => (vals, none)
  | (pos, fi) :: rest, vals =>
    if pos > tokCount && fi.options.hasDefault then
      match ConvertToType fi.options.dflt fi.typ fi.name pos with
      | .error e => (vals, some e)
      | .ok v => pass2 tokCount rest (vals.set fi.index v)
    else pass2 tokCount rest vals

/-- Whether the field at position `p` stays in the `requiredFields` tracking
map at the end of `Unmarshal`: required, beyond the token count (pass one
deletes every position with a token), without a default (pass two deletes
defaulted positions). -/
def unsatAt (fl : FieldsMap) (tokCount : Nat) (p : Nat) : Bool :=
  match lookupF fl p with
  | some fi => fi.options.required && decide (p > tokCount) && !fi.options.hasDefault
  | none => false

/-- The unsatisfied required positions in ascending order. -/
def unsatRequired (fl : FieldsMap) (tokCount : Nat) : List Nat :=
  (GetSortedPositions fl).filter (unsatAt fl tokCount)

/-- The final required-field check of `Unmarshal` under an explicit map
iteration order: the Go code iterates its `requiredFields` map and returns
the error for the first unsatisfied field the iteration yields, and the
iteration order of a Go map is unspecified (and randomized), so the check is
faithful only as a family over every enumeration `order` of the tracked
positions. -/
def requiredErrOrd (order : List Nat) (fl : FieldsMap) (tokCount : Nat) :
    Option UErr :=
  match order.filter (unsatAt fl tokCount) with
  | [] => none
  | p :: _ =>
    match lookupF fl p with
    | some fi =>
      some (.validation fi.name []
        ("required field at position " ++ toString p ++ " is missing"))
    | none => none

/-- The required-field check at the ascending iteration order — the one
admissible order this model's `Unmarshal` commits to (definitionally
`requiredErrOrd (GetSortedPositions fl)`). -/
def requiredErr (fl : FieldsMap) (tokCount : Nat) : Option UErr :=
  match unsatRequired fl tokCount with
  | [] => none
  | p :: _ =>
    match lookupF fl p with
    | some fi =>
      some (.validation fi.name []
        ("required field at position " ++ toString p ++ " is missing"))
    | none => none

/-- `Unmarshal` from `marshaler.go`, with the target struct value threaded
explicitly: returns the (possibly partially updated) field values and the
error, if any.  The nil / non-pointer guards precede this in the source. -/
def Unmarshal (t : RType) (init : List GoVal) (data : List Nat) :
    List GoVal × Option UErr :=
  match ParseRowLiteral data with
  | .error e => (init, some e)
  | .ok toks =>
    match GetStructFields t with
    | .error e => (init, some e)
    | .ok fl =>
      match pass1 fl toks 0 init with
      | (vals, some e) => (vals, some e)
      | (vals, none) =>
        match pass2 toks.length fl vals with
        | (vals2, some e) => (vals2, some e)
        | (vals2, none) =>
          match requiredErr fl toks.length with
          | some e => (vals2, some e)
          | none => (vals2, none)

/-- `UnmarshalStrict` from `marshaler.go`: parse and field extraction, the
token-count check against the maximum declared position, then a plain
`Unmarshal` of the same data.  Source error wording: "row has more values
than struct has tagged fields". -/
def UnmarshalStrict (t : RType) (init : List GoVal) (data : List Nat) :
    List GoVal × Option UErr :=
  match ParseRowLiteral data with
  | .error e => (init, some e)
  | .ok toks =>
    match GetStructFields t with
    | .error e => (init, some e)
    | .ok fl =>
      if toks.length > GetMaxPosition fl then
        (init, some (.validation "" [] "row has more values than struct has tagged fields"))
      else Unmarshal t init data

/-- The fresh (zero) record of a struct type, as `Unmarshal` receives it in
the round-trip scenario. -/
def freshRecord : RType → List GoVal
  | .strct fs => fs.map (fun f => zeroOf f.typ)
  | .ptr (.strct fs) => fs.map (fun f => zeroOf f.typ)
  | _ => []

/-! ## The recognized nullable wrappers (`convertSQLNull` / `formatSQLNull`)

All eight wrappers of `types.go` are modelled for claim C5.  Floating-point
formatting/parsing (`strconv.FormatFloat` / `ParseFloat`) and time
formatting/parsing (`time.Format` / `time.Parse`) are the two standard
library leaves that a shallow embedding cannot define; they enter as
function parameters over abstract payloads (`Nat`: the 64-bit value for
floats, an instant for times with `0` the zero time), and the theorems
assume of them only what the claims need. -/

inductive NullKind where
  | wString
  | wBool
  | wInt16
  | wInt32
  | wInt64
  | wByte
  | wFloat64
  | wTime
  deriving DecidableEq

/-- A value of one of the `sql.Null*` wrapper types.  The payload of an
invalid wrapper is still carried, as in the Go structs. -/
inductive NullVal where
  | nString (valid : Bool) (s : List Nat)
  | nBool (valid : Bool) (b : Bool)
  | nInt16 (valid : Bool) (n : Int)
  | nInt32 (valid : Bool) (n : Int)
  | nInt64 (valid : Bool) (n : Int)
  | nByte (valid : Bool) (n : Nat)
  | nFloat64 (valid : Bool) (x : Nat)
  | nTime (valid : Bool) (t : Nat)
  deriving DecidableEq

/-- The `Valid` flag of a wrapper value. -/
def NullVal.valid : NullVal → Bool
  | .nString v _ => v
  | .nBool v _ => v
  | .nInt16 v _ => v
  | .nInt32 v _ => v
  | .nInt64 v _ => v
  | .nByte v _ => v
  | .nFloat64 v _ => v
  | .nTime v _ => v

/-- The invalid (absent) wrapper of each kind, as the decode paths build it:
all payload fields are left at their zero values. -/
def invalidOf : NullKind → NullVal
  | .wString => .nString false []
  | .wBool => .nBool false false
  | .wInt16 => .nInt16 false 0
  | .wInt32 => .nInt32 false 0
  | .wInt64 => .nInt64 false 0
  | .wByte => .nByte false 0
  | .wFloat64 => .nFloat64 false 0
  | .wTime => .nTime false 0

/-- `convertToTime` from `types.go`: empty is the zero time; otherwise trim
and try the format list, a type-mismatch error if none matches.  The format
chain `time.Parse(RFC3339), …` is the abstract parameter `tryTime`. -/
def convertToTime (tryTime : List Nat → Option Nat) (value : List Nat)
    (fieldName : String) (fieldPos : Nat) : Except UErr Nat :=
  if value = [] then .ok 0
  else
    match tryTime (trimSpace value) with
    | some t => .ok t
    | none => .error (.typeMismatch fieldName fieldPos (trimSpace value) "time.Time" "invalid time format")

/-- `convertToFloat` from `types.go` (bit size 64): empty is zero; otherwise
trim and `strconv.ParseFloat`, abstract parameter `pf`. -/
def convertToFloat (pf : List Nat → Option Nat) (value : List Nat)
    (fieldName : String) (fieldPos : Nat) : Except UErr Nat :=
  if value = [] then .ok 0
  else
    match pf (trimSpace value) with
    | some x => .ok x
    | none => .error (.typeMismatch fieldName fieldPos (trimSpace value) "float64" "parse float failed")

/-- `convertSQLNull` from `types.go`: for each recognized wrapper type,
empty or case-insensitive `null` text gives the invalid wrapper; any other
text is decoded by the inner kind and marked valid. -/
def convertSQLNull (pf tryTime : List Nat → Option Nat) (k : NullKind)
    (value : List Nat) (fieldName : String) (fieldPos : Nat) :
    Except UErr NullVal :=
  if value = [] || eqFoldNull value then .ok (invalidOf k)
  else
    match k with
    | .wString => .ok (.nString true value)
    | .wBool =>
      match convertToBool value fieldName fieldPos with
      | .error e => .error e
      | .ok b => .ok (.nBool true b)
    | .wInt16 =>
      match convertToInt value 16 "int16" fieldName fieldPos with
      | .error e => .error e
      | .ok n => .ok (.nInt16 true n)
    | .wInt32 =>
      match convertToInt value 32 "int32" fieldName fieldPos with
      | .error e => .error e
      | .ok n => .ok (.nInt32 true n)
    | .wInt64 =>
      match convertToInt value 64 "int64" fieldName fieldPos with
      | .error e => .error e
      | .ok n => .ok (.nInt64 true n)
    | .wByte =>
      match convertToUint value 8 "uint8" fieldName fieldPos with
      | .error e => .error e
      | .ok n => .ok (.nByte true n)
    | .wFloat64 =>
      match convertToFloat pf value fieldName fieldPos with
      | .error e => .error e
      | .ok x => .ok (.nFloat64 true x)
    | .wTime =>
      match convertToTime tryTime value fieldName fieldPos with
      | .error e => .error e
      | .ok t => .ok (.nTime true t)

/-- `formatSQLNull` from `types.go`: invalid wrappers print the unquoted
literal `NULL`; valid wrappers print their payload (strings escaped, the
zero time as the quoted empty string, other times escaped in the abstract
RFC3339 rendering `ft`, floats in the abstract rendering `ff`). -/
def formatSQLNull (ff ft : Nat → List Nat) : NullVal → List Nat
  | .nString valid s => if valid then EscapeString s else strBytes "NULL"
  | .nBool valid b =>
    if valid then (if b then strBytes "true" else strBytes "false") else strBytes "NULL"
  | .nInt16 valid n => if valid then intToBytes n else strBytes "NULL"
  | .nInt32 valid n => if valid then intToBytes n else strBytes "NULL"
  | .nInt64 valid n => if valid then intToBytes n else strBytes "NULL"
  | .nByte valid n => if valid then natToBytes n else strBytes "NULL"
  | .nFloat64 valid x => if valid then ff x else strBytes "NULL"
  | .nTime valid t =>
    if valid then (if t = 0 then [34, 34] else EscapeString (ft t)) else strBytes "NULL"

/-! ## SQL builders (`templates/pgx/pgx.go`) -/

/-- `Field` from `pgx.go` (only the members the SQL builders read). -/
structure PField where
  sqlName : String
  isPrimary : Bool := false
  isSequence : Bool := false
  deriving DecidableEq

/-- `Table` from `pgx.go` (only the members the SQL builders read).
`convertTable` sets `primaryKeys` to the primary fields in declared order. -/
structure PTable where
  sqlName : String
  primaryKeys : List PField
  fields : List PField
  deriving DecidableEq

/-- The `Funcs` template-helper state (the members the SQL builders read). -/
structure PgxFuncs where
  schema : String := ""
  escSchema : Bool := false
  escColumn : Bool := false
  driver : String := "postgres"
  deriving DecidableEq

/-- Modelled from the spec: the loader's `NthParam` for PostgreSQL, which the
`Funcs.nth` member holds (`loader.NthParam(ctx)`, outside `src/`); §4.8:
"Placeholder numbering uses `$n` (1-based) assigned in column order". -/
def nth (i : Nat) : String := "$" ++ toString (i + 1)

/-- `colname` from `pgx.go`. -/
def colname (f : PgxFuncs) (field : PField) : String :=
  if f.escColumn then "\"" ++ field.sqlName ++ "\"" else field.sqlName

/-- `schemafn` from `pgx.go`, for a single joined name. -/
def schemafn (f : PgxFuncs) (n : String) : String :=
  if f.schema = "" && n = "" then ""
  else if f.driver = "sqlite3" then n
  else if f.schema ≠ "" && n ≠ "" && f.escSchema then
    "\"" ++ f.schema ++ "\".\"" ++ n ++ "\""
  else if f.schema ≠ "" && n ≠ "" then f.schema ++ "." ++ n
  else if f.escSchema then "\"" ++ n ++ "\"" else n

/-- The names/values loop of `sqlstr_insert_base`: skip sequence columns
unless `all`, and number the placeholders with the counter `n`. -/
def insertCV (f : PgxFuncs) (all : Bool) : List PField → Nat →
    List String × List String
  | [], _ => ([], [])
  | fd :: rest, n =>
    if fd.isSequence && !all then insertCV f all rest n
    else
      let (cs, vs) := insertCV f all rest (n + 1)
      (colname f fd :: cs, nth n :: vs)

/-- `sqlstr_insert_base` from `pgx.go`. -/
def sqlstr_insert_base (f : PgxFuncs) (all : Bool) (t : PTable) : List String :=
  let (cols, vals) := insertCV f all t.fields 0
  ["INSERT INTO " ++ schemafn f t.sqlName ++ " (",
   String.intercalate ", " cols ++ ") ",
   "VALUES (" ++ String.intercalate ", " vals ++ ")"]

/-- `hasSequence` from `pgx.go`. -/
def hasSequence (t : PTable) : Bool := t.fields.any (·.isSequence)

/-- `seqField` from `pgx.go`. -/
def seqField (t : PTable) : PField :=
  (t.fields.find? (·.isSequence)).getD ⟨"", false, false⟩

/-- `sqlstr_insert` from `pgx.go`. -/
def sqlstr_insert (f : PgxFuncs) (t : PTable) : List String :=
  let lines := sqlstr_insert_base f false t
  if hasSequence t then lines ++ [" RETURNING " ++ colname f (seqField t)]
  else lines

/-- The assignments loop of `sqlstr_update_base`: skip primary keys; the
value is the `n`-th placeholder, or `pfx ++ SQLName` when a prefix is given;
returns the final counter and the assignment strings. -/
def updateSets (f : PgxFuncs) (pfx : String) : List PField → Nat →
    Nat × List String
  | [], n => (n, [])
  | fd :: rest, n =>
    if fd.isPrimary then updateSets f pfx rest n
    else
      let val := if pfx = "" then nth n else pfx ++ fd.sqlName
      let (m, ss) := updateSets f pfx rest (n + 1)
      (m, (colname f fd ++ " = " ++ val) :: ss)

/-- `sqlstr_update_base` from `pgx.go`. -/
def sqlstr_update_base (f : PgxFuncs) (pfx : String) (t : PTable) :
    Nat × List String :=
  let (n, ss) := updateSets f pfx t.fields 0
  (n, ["UPDATE " ++ schemafn f t.sqlName ++ " SET ",
       String.intercalate ", " ss ++ " "])

/-- `sqlstr_update` from `pgx.go`: the non-primary-key assignments, then the
primary keys in the `WHERE` clause with the continuing placeholder numbers. -/
def sqlstr_update (f : PgxFuncs) (t : PTable) : List String :=
  let (n, lines) := sqlstr_update_base f "" t
  let list := t.primaryKeys.enum.map
    (fun e => colname f e.2 ++ " = " ++ nth (n + e.1))
  lines ++ ["WHERE " ++ String.intercalate " AND " list]

/-- `sqlstr_upsert` from `pgx.go`: the all-columns insert, the conflict
clause over the primary-key SQL names, then `update[1:]` of the
`EXCLUDED.`-prefixed update (the `UPDATE … SET ` head line is dropped),
then `RETURNING` when the table has a sequence. -/
def sqlstr_upsert (f : PgxFuncs) (t : PTable) : List String :=
  let lines := sqlstr_insert_base f true t
  let conflicts := t.primaryKeys.map (·.sqlName)
  let lines := lines ++ [" ON CONFLICT (" ++ String.intercalate ", " conflicts ++ ") DO "]
  let update := (sqlstr_update_base f "EXCLUDED." t).2
  let lines := if update.length > 1 then lines ++ update.drop 1 else lines
  if hasSequence t then lines ++ [" RETURNING " ++ colname f (seqField t)]
  else lines

/-- `sqlstr_delete` from `pgx.go`. -/
def sqlstr_delete (f : PgxFuncs) (t : PTable) : List String :=
  let list := t.primaryKeys.enum.map
    (fun e => colname f e.2 ++ " = " ++ nth e.1)
  ["DELETE FROM " ++ schemafn f t.sqlName ++ " ",
   "WHERE " ++ String.intercalate " AND " list]

/-- `buildSqlstr` emits the lines as one concatenated Go string constant;
the SQL text is their concatenation. -/
def sqlJoin (lines : List String) : String := String.join lines

/-! ## Name mapping and file destinations (`pgx.go`) -/

/-- The output-file extension (`const ext = ".dbtpl.go"`). -/
def extGo : String := ".dbtpl.go"

/-- Split a character list at every underscore (`strings.Split(s, "_")`). -/
def splitUnderscore : List Char → List (List Char)
  | [] => [[]]
  | c :: rest =>
    match splitUnderscore rest with
    | [] => [[c]]
    | p :: ps => if c = '_' then [] :: p :: ps else (c :: p) :: ps

/-- ASCII lower-casing of a string (`strings.ToLower`). -/
def lowerStr (s : String) : String := String.mk (s.toList.map Char.toLower)

/-- Upper-case the first character of a segment. -/
def upFirstL : List Char → List Char
  | [] => []
  | c :: r => c.toUpper :: r

/-- Modelled from the spec: `snaker.ForceCamelIdentifier` (third-party), per
§4.7 "convert snake-case to exported camel-case".  The configurable
initialism set is empty here; initialisms only change letter case inside a
segment, which is irrelevant to the lower-cased file names studied below. -/
def camelExport (s : String) : String :=
  String.mk (((splitUnderscore s.toList).map upFirstL).flatten)

/-- Modelled from the spec: `snaker.CamelToSnake` (third-party), §4.7: an
underscore is inserted before each interior upper-case letter and all
letters are lowered; on an already snake-case input it is the identity. -/
def camelToSnake (s : String) : String :=
  String.mk (go s.toList true)
where
  go : List Char → Bool → List Char
  | [], _ => []
  | c :: rest, first =>
    if c.isUpper && !first then '_' :: c.toLower :: go rest false
    else c.toLower :: go rest false

/-- `snake` from `pgx.go` for a single name. -/
def snake (s : String) : String := camelToSnake s

/-- Modelled from the spec: `inflector.Singularize` (third-party) restricted
to regular plurals, per the §4.7 example `tags → tag`: a trailing `s` (not
`ss`) is dropped. -/
def inflectorSingularizeL (cs : List Char) : List Char :=
  if cs.getLast? = some 's' && cs.dropLast.getLast? ≠ some 's' then
    cs.dropLast
  else cs

/-- `singularize` from `pgx.go`: split at the last underscore and
singularize only the suffix. -/
def singularize (s : String) : String :=
  let parts := splitUnderscore s.toList
  if parts.length ≤ 1 then String.mk (inflectorSingularizeL s.toList)
  else
    String.mk (List.intercalate ['_'] parts.dropLast ++
      '_' :: inflectorSingularizeL ((parts.getLast?).getD []))

/-- A stored procedure as `fileNames` / `emitSchema` see it. -/
structure PProc where
  name : String
  ptype : String
  deriving DecidableEq

/-- A schema as `fileNames` / `emitSchema` see it (tables and views are
walked as one appended list in both functions). -/
structure PSchema where
  enums : List String
  procs : List PProc
  tables : List String
  deriving DecidableEq

/-- The `sp_` / `sf_` prefix choice shared by `fileNames` and `emitSchema`. -/
def procPrefix (ptype : String) : String :=
  if ptype = "function" then "sf_" else "sp_"

/-- The proc loop of `fileNames`: deduplicate by converted name via the
`procs` set, emitting one destination per first occurrence. -/
def procFiles : List PProc → List String → List String
  | [], _ => []
  | p :: rest, seen =>
    let name := camelExport p.name
    if name ∈ seen then procFiles rest seen
    else (procPrefix p.ptype ++ lowerStr name ++ extGo) :: procFiles rest (name :: seen)

/-- `fileNames` from `pgx.go`, schema mode, for one schema: enums, then
deduplicated procs, then tables (and views). -/
def fileNamesSchema (s : PSchema) : List String :=
  s.enums.map (fun e => lowerStr (camelExport e) ++ extGo) ++
  procFiles s.procs [] ++
  s.tables.map (fun t => lowerStr (camelExport (singularize t)) ++ extGo)

/-- The `overloadMap` / `procOrder` accumulation of `emitSchema` +
`convertProc`: procs are grouped by converted name (appending preserves the
first member) and names are ordered by first occurrence. -/
def convertProcFold : List PProc → List (String × List PProc) → List String →
    List (String × List PProc) × List String
  | [], m, order => (m, order)
  | p :: rest, m, order =>
    let name := camelExport p.name
    match m.find? (fun e => e.1 = name) with
    | some _ =>
      convertProcFold rest
        (m.map (fun e => if e.1 = name then (e.1, e.2 ++ [p]) else e)) order
    | none => convertProcFold rest (m ++ [(name, [p])]) (order ++ [name])

/-- The proc destinations `emitSchema` emits: for each grouped name in first
seen order, the prefix comes from the group head (`procs[0].Type`). -/
def emitProcDests (ps : List PProc) : List String :=
  let (m, order) := convertProcFold ps [] []
  order.map (fun name =>
    let group := (((m.find? (fun e => e.1 = name)).map (·.2)).getD [])
    procPrefix (((group.head?).map (·.ptype)).getD "") ++ lowerStr name ++ extGo)

/-- The destinations `emitSchema` emits for one schema, in emission order
(the enum dest is `strings.ToLower(enum.GoName)` with `convertEnum` setting
`GoName = camelExport(e.Name)`; the table dest is
`strings.ToLower(table.GoName)` with `convertTable` setting
`GoName = camelExport(singularize(t.Name))`; index and foreign-key
templates reuse the table destination and are not repeated here). -/
def emitDests (s : PSchema) : List String :=
  s.enums.map (fun e => lowerStr (camelExport e) ++ extGo) ++
  emitProcDests s.procs ++
  s.tables.map (fun t => lowerStr (camelExport (singularize t)) ++ extGo)

/-! ## Lemmas: decimal formatting and parsing -/

theorem natDigits_ne_nil (n : Nat) : natDigits n ≠ [] := by
  unfold natDigits
  split <;> simp

theorem natDigits_lt (n : Nat) : ∀ d ∈ natDigits n, d < 10 := by
  induction n using Nat.strong_induction_on with
  | _ n ih =>
    unfold natDigits
    split
    · next h => intro d hd; simp at hd; omega
    · next h =>
      intro d hd
      simp only [List.mem_append, List.mem_singleton] at hd
      rcases hd with hd | hd
      · exact ih (n / 10) (Nat.div_lt_self (by omega) (by omega)) d hd
      · subst hd; exact Nat.mod_lt _ (by omega)

theorem natDigits_foldl (n : Nat) :
    (natDigits n).foldl (fun a d => a * 10 + d) 0 = n := by
  induction n using Nat.strong_induction_on with
  | _ n ih =>
    unfold natDigits
    split
    · next h => simp
    · next h =>
      rw [List.foldl_append, ih (n / 10) (Nat.div_lt_self (by omega) (by omega))]
      simp only [List.foldl_cons, List.foldl_nil]
      omega

theorem parseDigits_go (ds : List Nat) (hds : ∀ d ∈ ds, d < 10) (acc : Nat) :
    parseDigits.go ((ds.map (· + 48))) acc =
      some (ds.foldl (fun a d => a * 10 + d) acc) := by
  induction ds generalizing acc with
  | nil => simp [parseDigits.go]
  | cons d rest ih =>
    have hd : d < 10 := hds d (by simp)
    have hdig : digitOfByte (d + 48) = some d := by
      have hsub : d + 48 - 48 = d := by omega
      unfold digitOfByte
      rw [if_pos (by omega), hsub]
    simp only [List.map_cons, parseDigits.go, hdig, List.foldl_cons]
    exact ih (fun x hx => hds x (by simp [hx])) _

theorem parseDigits_natToBytes (n : Nat) : parseDigits (natToBytes n) = some n := by
  have hne := natDigits_ne_nil n
  have hlt := natDigits_lt n
  have hfold := natDigits_foldl n
  unfold natToBytes
  cases hd : natDigits n with
  | nil => exact absurd hd hne
  | cons d ds =>
    rw [hd] at hlt hfold
    have hgo := parseDigits_go (d :: ds) hlt 0
    rw [hfold] at hgo
    simpa [parseDigits] using hgo

theorem natToBytes_cons (n : Nat) :
    ∃ b bs, natToBytes n = b :: bs ∧ 48 ≤ b ∧ b ≤ 57 := by
  have hne := natDigits_ne_nil n
  have hlt := natDigits_lt n
  unfold natToBytes
  cases hd : natDigits n with
  | nil => exact absurd hd hne
  | cons d ds =>
    rw [hd] at hlt
    have : d < 10 := hlt d (by simp)
    exact ⟨d + 48, ds.map (· + 48), by simp, by omega, by omega⟩

theorem natToBytes_mem (n : Nat) : ∀ b ∈ natToBytes n, 48 ≤ b ∧ b ≤ 57 := by
  intro b hb
  unfold natToBytes at hb
  rcases List.mem_map.mp hb with ⟨d, hd, rfl⟩
  have := natDigits_lt n d hd
  omega

theorem intToBytes_mem (n : Int) :
    ∀ b ∈ intToBytes n, b = 45 ∨ (48 ≤ b ∧ b ≤ 57) := by
  intro b hb
  unfold intToBytes at hb
  split at hb
  · rcases List.mem_cons.mp hb with rfl | hb
    · left; rfl
    · right; exact natToBytes_mem _ b hb
  · right; exact natToBytes_mem _ b hb

theorem intToBytes_ne_nil (n : Int) : intToBytes n ≠ [] := by
  unfold intToBytes
  split
  · simp
  · rcases natToBytes_cons n.toNat with ⟨b, bs, h, _, _⟩
    simp [h]

theorem trimSpace_eq_self {s : List Nat} (h : ∀ b ∈ s, isSpaceASCII b = false) :
    trimSpace s = s := by
  have h1 : ∀ t : List Nat, (∀ b ∈ t, isSpaceASCII b = false) →
      t.dropWhile isSpaceASCII = t := by
    intro t ht
    cases t with
    | nil => rfl
    | cons b bs => simp [List.dropWhile, ht b (by simp)]
  unfold trimSpace
  rw [h1 s h, h1 _ (fun b hb => h b (List.mem_reverse.mp hb)), List.reverse_reverse]

theorem isSpaceASCII_of_digit_or_minus {b : Nat}
    (h : b = 45 ∨ (48 ≤ b ∧ b ≤ 57)) : isSpaceASCII b = false := by
  rcases h with rfl | h
  · decide
  · simp [isSpaceASCII]
    omega

theorem goParseInt_neg_digits (m : Nat) :
    goParseInt (45 :: natToBytes m) 64 =
      if (m : Int) ≤ 2 ^ 63 then some (-(m : Int)) else none := by
  simp [goParseInt, parseDigits_natToBytes]

theorem goParseInt_pos_digits (m : Nat) :
    goParseInt (natToBytes m) 64 =
      if (m : Int) ≤ 2 ^ 63 - 1 then some (m : Int) else none := by
  rcases natToBytes_cons m with ⟨b, bs, hb, hb1, hb2⟩
  have hh : (natToBytes m).head? = some b := by rw [hb]; rfl
  have e43 : ((natToBytes m).head? = some 43) = False := by
    simp only [hh, Option.some.injEq, eq_iff_iff, iff_false]
    omega
  have e45 : ((natToBytes m).head? = some 45) = False := by
    simp only [hh, Option.some.injEq, eq_iff_iff, iff_false]
    omega
  simp only [goParseInt, e43, e45]
  norm_num [parseDigits_natToBytes]

theorem goParseInt_intToBytes (n : Int) (h1 : -(2 ^ 63) ≤ n) (h2 : n ≤ 2 ^ 63 - 1) :
    goParseInt (intToBytes n) 64 = some n := by
  unfold intToBytes
  by_cases hn : n < 0
  · rw [if_pos hn, goParseInt_neg_digits]
    have hm : ((-n).toNat : Int) = -n := Int.toNat_of_nonneg (by omega)
    rw [if_pos (by rw [hm]; omega), hm, neg_neg]
  · rw [if_neg hn, goParseInt_pos_digits]
    have hm : (n.toNat : Int) = n := Int.toNat_of_nonneg (by omega)
    rw [if_pos (by rw [hm]; omega), hm]

theorem convertToInt_intToBytes (n : Int) (h1 : -(2 ^ 63) ≤ n)
    (h2 : n ≤ 2 ^ 63 - 1) (tn nm : String) (p : Nat) :
    convertToInt (intToBytes n) 64 tn nm p = .ok n := by
  unfold convertToInt
  rw [if_neg (intToBytes_ne_nil n),
    trimSpace_eq_self (fun b hb => isSpaceASCII_of_digit_or_minus (intToBytes_mem n b hb)),
    goParseInt_intToBytes n h1 h2]

/-! ## Lemmas: the lexer on writer output -/

theorem isSpaceB_of_isSpaceASCII {b : Nat} (h : isSpaceASCII b = true) :
    isSpaceB b = true := by
  simp only [isSpaceASCII, Bool.or_eq_true, decide_eq_true_eq] at h
  simp only [isSpaceB, Bool.or_eq_true, decide_eq_true_eq]
  tauto

theorem isSpaceASCII_false_of_stopB {b : Nat} (h : stopB b = false) :
    isSpaceASCII b = false := by
  by_contra hc
  have : isSpaceB b = true := isSpaceB_of_isSpaceASCII (by revert hc; cases isSpaceASCII b <;> simp)
  simp [stopB, this] at h

theorem pqsLoop_esc_pair (b c : Nat) (hb : escDecode c = [b]) (s' rest : List Nat)
    (ihres : pqsLoop (s'.flatMap escByte ++ (34 :: rest)) =
      some (s', (s'.flatMap escByte).length + 1)) :
    pqsLoop (92 :: c :: (s'.flatMap escByte ++ (34 :: rest))) =
      some (b :: s', (s'.flatMap escByte).length + 3) := by
  unfold pqsLoop
  rw [if_pos rfl]
  simp only [ihres, hb, List.singleton_append]

theorem pqsLoop_plain (b : Nat) (h92 : b ≠ 92) (h34 : b ≠ 34) (s' rest : List Nat)
    (ihres : pqsLoop (s'.flatMap escByte ++ (34 :: rest)) =
      some (s', (s'.flatMap escByte).length + 1)) :
    pqsLoop (b :: (s'.flatMap escByte ++ (34 :: rest))) =
      some (b :: s', (s'.flatMap escByte).length + 2) := by
  unfold pqsLoop
  rw [if_neg h92, if_neg h34]
  simp only [ihres]

theorem pqsLoop_escape (s : List Nat) (rest : List Nat) (hr : rest.head? ≠ some 34) :
    pqsLoop (s.flatMap escByte ++ (34 :: rest)) =
      some (s, (s.flatMap escByte).length + 1) := by
  induction s with
  | nil =>
    simp only [List.flatMap_nil, List.nil_append, List.length_nil]
    unfold pqsLoop
    rw [if_neg (by decide), if_pos rfl]
    cases rest with
    | nil => rfl
    | cons c rest' =>
      have hc : c ≠ 34 := by
        intro hcon
        exact hr (by rw [hcon]; rfl)
      simp only [if_neg hc]
  | cons b s' ih =>
    by_cases e34 : b = 34
    · subst e34
      simp only [List.flatMap_cons, show escByte 34 = [92, 34] from rfl,
        List.cons_append, List.append_assoc, List.nil_append]
      rw [pqsLoop_esc_pair 34 34 rfl s' rest ih]
      simp only [Option.some.injEq, Prod.mk.injEq, List.length_cons, true_and]
    · by_cases e92 : b = 92
      · subst e92
        simp only [List.flatMap_cons, show escByte 92 = [92, 92] from rfl,
          List.cons_append, List.append_assoc, List.nil_append]
        rw [pqsLoop_esc_pair 92 92 rfl s' rest ih]
        simp only [Option.some.injEq, Prod.mk.injEq, List.length_cons, true_and]
      · by_cases e10 : b = 10
        · subst e10
          simp only [List.flatMap_cons, show escByte 10 = [92, 110] from rfl,
            List.cons_append, List.append_assoc, List.nil_append]
          rw [pqsLoop_esc_pair 10 110 rfl s' rest ih]
          simp only [Option.some.injEq, Prod.mk.injEq, List.length_cons, true_and]
        · by_cases e13 : b = 13
          · subst e13
            simp only [List.flatMap_cons, show escByte 13 = [92, 114] from rfl,
              List.cons_append, List.append_assoc, List.nil_append]
            rw [pqsLoop_esc_pair 13 114 rfl s' rest ih]
            simp only [Option.some.injEq, Prod.mk.injEq, List.length_cons, true_and]
          · by_cases e9 : b = 9
            · subst e9
              simp only [List.flatMap_cons, show escByte 9 = [92, 116] from rfl,
                List.cons_append, List.append_assoc, List.nil_append]
              rw [pqsLoop_esc_pair 9 116 rfl s' rest ih]
              simp only [Option.some.injEq, Prod.mk.injEq, List.length_cons, true_and]
            · by_cases e0 : b = 0
              · subst e0
                simp only [List.flatMap_cons, show escByte 0 = [92, 48] from rfl,
                  List.cons_append, List.append_assoc, List.nil_append]
                rw [pqsLoop_esc_pair 0 48 rfl s' rest ih]
                simp only [Option.some.injEq, Prod.mk.injEq, List.length_cons, true_and]
              · have he : escByte b = [b] := by
                  unfold escByte
                  rw [if_neg e34, if_neg e92, if_neg e10, if_neg e13, if_neg e9, if_neg e0]
                simp only [List.flatMap_cons, he, List.cons_append, List.append_assoc,
                  List.nil_append]
                rw [pqsLoop_plain b e92 e34 s' rest ih]
                simp only [Option.some.injEq, Prod.mk.injEq, List.length_cons, true_and]

theorem take_len_append (l₁ l₂ : List Nat) : (l₁ ++ l₂).take l₁.length = l₁ := by
  induction l₁ with
  | nil => rfl
  | cons a l ih => simp [ih]

theorem drop_len_append (l₁ l₂ : List Nat) : (l₁ ++ l₂).drop l₁.length = l₂ := by
  induction l₁ with
  | nil => rfl
  | cons a l ih => simp [ih]

theorem parseQuotedString_escape (s rest : List Nat) (abs : Nat)
    (hr : rest.head? ≠ some 34) :
    parseQuotedString (EscapeString s ++ rest) abs =
      .ok ({ value := s, rawValue := EscapeString s, quoted := true, position := abs },
        (EscapeString s).length) := by
  have hx : EscapeString s ++ rest = 34 :: (s.flatMap escByte ++ (34 :: rest)) := by
    simp [EscapeString]
  rw [hx]
  simp only [parseQuotedString, List.head?_cons, if_pos, List.tail_cons,
    pqsLoop_escape s rest hr]
  have htake : (34 :: (s.flatMap escByte ++ (34 :: rest))).take
      ((s.flatMap escByte).length + 1 + 1) = EscapeString s := by
    simp only [List.take_succ_cons, EscapeString]
    rw [show (s.flatMap escByte).length + 1 =
      (s.flatMap escByte ++ [34]).length from by simp]
    rw [show s.flatMap escByte ++ (34 :: rest) =
      (s.flatMap escByte ++ [34]) ++ rest from by simp]
    rw [take_len_append]
  rw [htake]
  have hlen : (EscapeString s).length = (s.flatMap escByte).length + 1 + 1 := by
    simp [EscapeString]
  rw [hlen]

theorem puvLoop_safe (w rest : List Nat)
    (hw : ∀ b ∈ w, stopB b = false ∧ b ≠ 34)
    (hr : rest = [] ∨ ∃ b, rest.head? = some b ∧ stopB b = true) :
    puvLoop (w ++ rest) = .ok w := by
  induction w with
  | nil =>
    simp only [List.nil_append]
    rcases hr with rfl | ⟨b, hb, hstop⟩
    · rfl
    · cases rest with
      | nil => simp at hb
      | cons x xs =>
        simp only [List.head?_cons, Option.some.injEq] at hb
        subst hb
        unfold puvLoop
        rw [if_pos hstop]
  | cons b w' ih =>
    have hb := hw b (by simp)
    simp only [List.cons_append]
    unfold puvLoop
    rw [if_neg (by simp [hb.1]), if_neg hb.2,
      ih (fun x hx => hw x (by simp [hx]))]

theorem parseUnquotedValue_safe (w rest : List Nat) (abs : Nat)
    (hw : ∀ b ∈ w, stopB b = false ∧ b ≠ 34)
    (hr : rest = [] ∨ ∃ b, rest.head? = some b ∧ stopB b = true) :
    parseUnquotedValue (w ++ rest) abs =
      .ok ({ value := w, rawValue := w, quoted := false, position := abs }, w.length) := by
  simp only [parseUnquotedValue, puvLoop_safe w rest hw hr,
    trimSpace_eq_self (fun b hb => isSpaceASCII_false_of_stopB (hw b hb).1)]

/-- What the round-trip proof needs of a formatted atom `w` with decoded
value `v`: it is nonempty, does not start with whitespace, and the token
dispatch parses it (before a separator or the end) to a token of value `v`
consuming exactly `w`. -/
def AtomOK (w v : List Nat) : Prop :=
  w ≠ [] ∧ (∀ b, w.head? = some b → isSpaceB b = false) ∧
  ∀ abs rest, (rest = [] ∨ rest.head? = some 44) →
    ∃ tok, parseOneToken (w ++ rest) abs = .ok (tok, w.length) ∧ tok.value = v

theorem atomOK_escape (s : List Nat) : AtomOK (EscapeString s) s := by
  refine ⟨by simp [EscapeString], ?_, ?_⟩
  · intro b hb
    simp only [EscapeString, List.head?_cons, Option.some.injEq] at hb
    subst hb
    decide
  · intro abs rest hrest
    have hr34 : rest.head? ≠ some 34 := by
      rcases hrest with rfl | h44
      · simp
      · rw [h44]; simp
    have hhead : (EscapeString s ++ rest).head? = some 34 := by
      simp [EscapeString]
    refine ⟨⟨s, EscapeString s, true, abs⟩, ?_, rfl⟩
    unfold parseOneToken
    rw [if_pos hhead, parseQuotedString_escape s rest abs hr34]

theorem atomOK_unquoted (w : List Nat) (hne : w ≠ [])
    (hw : ∀ b ∈ w, stopB b = false ∧ b ≠ 34) : AtomOK w w := by
  refine ⟨hne, ?_, ?_⟩
  · intro b hb
    have hmem : b ∈ w := by
      cases w with
      | nil => simp at hb
      | cons x xs =>
        simp only [List.head?_cons, Option.some.injEq] at hb
        subst hb
        simp
    have := (hw b hmem).1
    simp only [stopB, Bool.or_eq_false_iff] at this
    exact this.2
  · intro abs rest hrest
    have hr : rest = [] ∨ ∃ b, rest.head? = some b ∧ stopB b = true := by
      rcases hrest with rfl | h44
      · exact Or.inl rfl
      · exact Or.inr ⟨44, h44, by decide⟩
    have hhead : (w ++ rest).head? ≠ some 34 := by
      cases w with
      | nil => exact absurd rfl hne
      | cons x xs =>
        intro hcon
        apply (hw x (by simp)).2
        simpa using hcon
    refine ⟨⟨w, w, false, abs⟩, ?_, rfl⟩
    unfold parseOneToken
    rw [if_neg hhead, parseUnquotedValue_safe w rest abs hw hr]

theorem intercalate44_singleton (w : List Nat) : List.intercalate [44] [w] = w := by
  simp [List.intercalate]

theorem intercalate44_cons (w w2 : List Nat) (ws : List (List Nat)) :
    List.intercalate [44] (w :: w2 :: ws) =
      w ++ 44 :: List.intercalate [44] (w2 :: ws) := by
  simp [List.intercalate, List.intersperse_cons_cons]

theorem head?_append_left {w x : List Nat} (h : w ≠ []) :
    (w ++ x).head? = w.head? := by
  cases w with
  | nil => exact absurd rfl h
  | cons a l => rfl

theorem dropWhileB_eq_self {l : List Nat}
    (h : ∀ b, l.head? = some b → isSpaceB b = false) :
    l.dropWhile isSpaceB = l := by
  cases l with
  | nil => rfl
  | cons a t => simp [List.dropWhile_cons, h a rfl]

theorem takeWhileB_eq_nil {l : List Nat}
    (h : ∀ b, l.head? = some b → isSpaceB b = false) :
    l.takeWhile isSpaceB = [] := by
  cases l with
  | nil => rfl
  | cons a t => simp [List.takeWhile_cons, h a rfl]

theorem parseTokensAux_atoms (ws : List (List Nat)) :
    ∀ (vs : List (List Nat)), List.Forall₂ AtomOK ws vs → ws ≠ [] →
    ∀ fuel abs acc, (List.intercalate [44] ws).length + 1 ≤ fuel →
    ∃ toks : List Token,
      parseTokensAux fuel (List.intercalate [44] ws) abs acc = .ok (acc ++ toks) ∧
      toks.map Token.value = vs ∧ toks.length = ws.length := by
  induction ws with
  | nil => intro vs h hne; exact absurd rfl hne
  | cons w ws' ih =>
    intro vs h _ fuel abs acc hfuel
    obtain ⟨v, vs', hav, h', rfl⟩ := List.forall₂_cons_left_iff.mp h
    obtain ⟨hw_ne, hw_head, hw_parse⟩ := hav
    cases ws' with
    | nil =>
      have hvs' : vs' = [] := List.forall₂_nil_left_iff.mp h'
      subst hvs'
      rw [intercalate44_singleton] at hfuel ⊢
      obtain ⟨f, rfl⟩ : ∃ f, fuel = f + 1 := ⟨fuel - 1, by omega⟩
      obtain ⟨tok, heq, hval⟩ := hw_parse abs [] (Or.inl rfl)
      rw [List.append_nil] at heq
      simp only [parseTokensAux, dropWhileB_eq_self hw_head,
        takeWhileB_eq_nil hw_head, List.length_nil, Nat.add_zero]
      rw [if_neg hw_ne, heq]
      simp only [List.drop_length, List.dropWhile_nil, if_pos]
      exact ⟨[tok], rfl, by simp [hval], rfl⟩
    | cons w2 ws'' =>
      rw [intercalate44_cons] at hfuel ⊢
      obtain ⟨f, rfl⟩ : ∃ f, fuel = f + 1 := ⟨fuel - 1, by omega⟩
      obtain ⟨tok, heq, hval⟩ :=
        hw_parse abs (44 :: List.intercalate [44] (w2 :: ws'')) (Or.inr rfl)
      have hw_head' : ∀ b, (w ++ 44 :: List.intercalate [44] (w2 :: ws'')).head? = some b →
          isSpaceB b = false := by
        intro b hb
        rw [head?_append_left hw_ne] at hb
        exact hw_head b hb
      simp only [parseTokensAux, dropWhileB_eq_self hw_head',
        takeWhileB_eq_nil hw_head', List.length_nil, Nat.add_zero]
      rw [if_neg (by simp [hw_ne]), heq]
      simp only [drop_len_append]
      have h44 : ∀ b, (44 :: List.intercalate [44] (w2 :: ws'')).head? = some b →
          isSpaceB b = false := by
        intro b hb
        simp only [List.head?_cons, Option.some.injEq] at hb
        subst hb
        decide
      simp only [dropWhileB_eq_self h44, takeWhileB_eq_nil h44, List.length_nil,
        Nat.add_zero]
      rw [if_neg (by simp),
        if_pos (show (44 :: List.intercalate [44] (w2 :: ws'')).head? = some 44 from rfl)]
      simp only [List.tail_cons]
      have hf : (List.intercalate [44] (w2 :: ws'')).length + 1 ≤ f := by
        simp only [List.length_append, List.length_cons] at hfuel
        omega
      obtain ⟨toks', heq', hmap, hlen⟩ :=
        ih vs' h' (by simp) f _ (acc ++ [tok]) hf
      refine ⟨tok :: toks', ?_, ?_, ?_⟩
      · rw [heq']
        simp
      · simp [hval, hmap]
      · simp [hlen]

theorem trimSpace_eq_self_of_ends (a b : Nat) (l : List Nat)
    (ha : isSpaceASCII a = false) (hb : isSpaceASCII b = false) :
    trimSpace (a :: (l ++ [b])) = a :: (l ++ [b]) := by
  unfold trimSpace
  have h1 : (a :: (l ++ [b])).dropWhile isSpaceASCII = a :: (l ++ [b]) := by
    simp [List.dropWhile_cons, ha]
  rw [h1]
  have h2 : (a :: (l ++ [b])).reverse = b :: (l.reverse ++ [a]) := by
    simp
  rw [h2]
  have h3 : (b :: (l.reverse ++ [a])).dropWhile isSpaceASCII =
      b :: (l.reverse ++ [a]) := by
    simp [List.dropWhile_cons, hb]
  rw [h3, ← h2, List.reverse_reverse]

theorem intercalate44_head (w0 : List Nat) (t : List (List Nat)) (h : w0 ≠ []) :
    (List.intercalate [44] (w0 :: t)).head? = w0.head? := by
  cases t with
  | nil => rw [intercalate44_singleton]
  | cons w2 t' => rw [intercalate44_cons]; exact head?_append_left h

theorem ParseRowLiteral_build (ws vs : List (List Nat))
    (h : List.Forall₂ AtomOK ws vs) (hne : ws ≠ []) :
    ∃ toks, ParseRowLiteral (BuildRowLiteral ws) = .ok toks ∧
      toks.map Token.value = vs ∧ toks.length = ws.length := by
  obtain ⟨w0, t, rfl⟩ : ∃ w0 t, ws = w0 :: t := by
    cases ws with
    | nil => exact absurd rfl hne
    | cons a l => exact ⟨a, l, rfl⟩
  obtain ⟨v0, vs', hav, h', rfl⟩ := List.forall₂_cons_left_iff.mp h
  obtain ⟨hw_ne, hw_head, _⟩ := hav
  set I := List.intercalate [44] (w0 :: t) with hI
  have hIhead : I.head? = w0.head? := intercalate44_head w0 t hw_ne
  have hIheadB : ∀ b, I.head? = some b → isSpaceB b = false := by
    intro b hb
    rw [hIhead] at hb
    exact hw_head b hb
  have hIne : I ≠ [] := by
    intro hcon
    cases w0 with
    | nil => exact absurd rfl hw_ne
    | cons x xs =>
      rw [hcon] at hIhead
      simp at hIhead
  have hbuild : BuildRowLiteral (w0 :: t) = 40 :: (I ++ [41]) := rfl
  rw [hbuild]
  have htrim : trimSpace (40 :: (I ++ [41])) = 40 :: (I ++ [41]) :=
    trimSpace_eq_self_of_ends 40 41 I (by decide) (by decide)
  unfold ParseRowLiteral
  rw [htrim]
  rw [if_neg (by simp)]
  rw [if_neg (by simp)]
  have hlast : (40 :: (I ++ [41])).getLast? = some 41 := by
    rw [show (40 : Nat) :: (I ++ [41]) = ((40 :: I) ++ [41]) from by simp,
      List.getLast?_concat]
  rw [if_neg (by rw [hlast]; simp)]
  have hcontent : ((40 :: (I ++ [41])).drop 1).dropLast = I := by
    simp
  rw [hcontent]
  have htrimI : ¬ trimSpace I = [] := by
    intro hcon
    obtain ⟨b0, hb0⟩ : ∃ b0, I.head? = some b0 := by
      obtain ⟨x, xs, hw0⟩ : ∃ x xs, w0 = x :: xs := by
        cases w0 with
        | nil => exact absurd rfl hw_ne
        | cons x xs => exact ⟨x, xs, rfl⟩
      exact ⟨x, by rw [hIhead, hw0]; rfl⟩
    have hb0s : isSpaceASCII b0 = false := by
      by_contra hc
      have hxt : isSpaceASCII b0 = true := by
        cases hxx : isSpaceASCII b0
        · exact absurd hxx hc
        · rfl
      have := isSpaceB_of_isSpaceASCII hxt
      rw [hIheadB b0 hb0] at this
      exact Bool.false_ne_true this
    have h1 : I.dropWhile isSpaceASCII = I := by
      rcases hi : I with _ | ⟨x, xs⟩
      · rfl
      · have : x = b0 := by rw [hi] at hb0; simpa using hb0
        subst this
        simp [List.dropWhile_cons, hb0s]
    have hdrop : I.reverse.dropWhile isSpaceASCII = [] := by
      unfold trimSpace at hcon
      rw [h1] at hcon
      have h2 : (I.reverse.dropWhile isSpaceASCII).reverse.reverse = [] := by
        rw [hcon]
        rfl
      rwa [List.reverse_reverse] at h2
    have hmem : b0 ∈ I.reverse := by
      rw [List.mem_reverse]
      exact List.mem_of_mem_head? hb0
    have hspace := List.dropWhile_eq_nil_iff.mp hdrop b0 hmem
    rw [hb0s] at hspace
    exact Bool.false_ne_true hspace
  rw [if_neg htrimI]
  obtain ⟨toks, heq, hmap, hlen⟩ :=
    parseTokensAux_atoms (w0 :: t) (v0 :: vs') h (by simp) (I.length + 1) 1 []
      (by rw [hI])
  rw [← hI] at heq
  simp only [List.nil_append] at heq
  unfold parseTokens
  refine ⟨toks, ?_, hmap, hlen⟩
  simp only [heq]

theorem trimSpace_ne_nil (l : List Nat) (b0 : Nat) (hb0 : l.head? = some b0)
    (hs : isSpaceASCII b0 = false) : ¬ trimSpace l = [] := by
  intro hcon
  have h1 : l.dropWhile isSpaceASCII = l := by
    rcases hi : l with _ | ⟨x, xs⟩
    · rw [hi] at hb0; simp at hb0
    · have : x = b0 := by rw [hi] at hb0; simpa using hb0
      subst this
      simp [List.dropWhile_cons, hs]
  have hdrop : l.reverse.dropWhile isSpaceASCII = [] := by
    unfold trimSpace at hcon
    rw [h1] at hcon
    have h2 : (l.reverse.dropWhile isSpaceASCII).reverse.reverse = [] := by
      rw [hcon]
      rfl
    rwa [List.reverse_reverse] at h2
  have hmem : b0 ∈ l.reverse := by
    rw [List.mem_reverse]
    exact List.mem_of_mem_head? hb0
  have hspace := List.dropWhile_eq_nil_iff.mp hdrop b0 hmem
  rw [hs] at hspace
  exact Bool.false_ne_true hspace

theorem parseOneToken_escape (s : List Nat) (abs : Nat) :
    parseOneToken (EscapeString s) abs =
      .ok (⟨s, EscapeString s, true, abs⟩, (EscapeString s).length) := by
  have h := parseQuotedString_escape s [] abs (by simp)
  rw [List.append_nil] at h
  unfold parseOneToken
  rw [if_pos (by simp [EscapeString]), h]

/-- C7: For every string `s` (any bytes, including quote, backslash, newline,
carriage return, tab and NUL), parsing the one-element row literal
`(` ++ `EscapeString s` ++ `)` succeeds and yields exactly one token, which
is quoted and whose decoded value equals `s`. -/
theorem C7_escape_roundtrip (s : List Nat) :
    ParseRowLiteral (40 :: (EscapeString s ++ [41])) =
      .ok [⟨s, EscapeString s, true, 1⟩] := by
  have htrim : trimSpace (40 :: (EscapeString s ++ [41])) =
      40 :: (EscapeString s ++ [41]) :=
    trimSpace_eq_self_of_ends 40 41 (EscapeString s) (by decide) (by decide)
  unfold ParseRowLiteral
  rw [htrim, if_neg (by simp), if_neg (by simp)]
  have hlast : (40 :: (EscapeString s ++ [41])).getLast? = some 41 := by
    rw [show (40 : Nat) :: (EscapeString s ++ [41]) =
      ((40 :: EscapeString s) ++ [41]) from by simp, List.getLast?_concat]
  rw [if_neg (by rw [hlast]; simp)]
  have hcontent : ((40 :: (EscapeString s ++ [41])).drop 1).dropLast =
      EscapeString s := by
    simp
  rw [hcontent]
  rw [if_neg (trimSpace_ne_nil (EscapeString s) 34 (by simp [EscapeString]) (by decide))]
  unfold parseTokens
  obtain ⟨f, hf⟩ : ∃ f, (EscapeString s).length + 1 = f + 1 :=
    ⟨(EscapeString s).length, rfl⟩
  rw [hf]
  have hhead : ∀ b, (EscapeString s).head? = some b → isSpaceB b = false := by
    intro b hb
    simp only [EscapeString, List.head?_cons, Option.some.injEq] at hb
    subst hb
    decide
  simp only [parseTokensAux, dropWhileB_eq_self hhead, takeWhileB_eq_nil hhead,
    List.length_nil, Nat.add_zero]
  rw [if_neg (by simp [EscapeString]), parseOneToken_escape s 1]
  simp only [List.drop_length, List.dropWhile_nil, if_pos, List.nil_append]

/-! ## Lemmas: fields map and list updates -/

theorem getD_set_self (l : List GoVal) (i : Nat) (v d : GoVal) (h : i < l.length) :
    (l.set i v).getD i d = v := by
  induction l generalizing i with
  | nil => simp at h
  | cons a t ih =>
    cases i with
    | zero => rfl
    | succ j =>
      simp only [List.set_cons_succ, List.getD_cons_succ]
      exact ih j (by simpa using h)

theorem getD_set_ne (l : List GoVal) (i j : Nat) (v d : GoVal) (h : i ≠ j) :
    (l.set i v).getD j d = l.getD j d := by
  induction l generalizing i j with
  | nil => rfl
  | cons a t ih =>
    cases i with
    | zero =>
      cases j with
      | zero => exact absurd rfl h
      | succ j' => rfl
    | succ i' =>
      cases j with
      | zero => rfl
      | succ j' =>
        simp only [List.set_cons_succ, List.getD_cons_succ]
        exact ih i' j' (by omega)

theorem lookupF_isSome_of_mem (fl : FieldsMap) (e : Nat × FieldInfo) (he : e ∈ fl) :
    (lookupF fl e.1).isSome := by
  unfold lookupF
  have hf : (fl.find? (fun x => x.1 = e.1)).isSome :=
    List.find?_isSome.mpr ⟨e, he, by simp⟩
  rcases Option.isSome_iff_exists.mp hf with ⟨a, ha⟩
  rw [ha]
  rfl

theorem mem_of_lookupF (fl : FieldsMap) (p : Nat) (fi : FieldInfo)
    (h : lookupF fl p = some fi) : (p, fi) ∈ fl := by
  unfold lookupF at h
  rcases Option.map_eq_some'.mp h with ⟨e, he, rfl⟩
  have hp : e.1 = p := by simpa using List.find?_some he
  have hm : e ∈ fl := List.mem_of_find?_eq_some he
  subst hp
  rw [Prod.mk.eta]
  exact hm

theorem lookupF_self (fl : FieldsMap) (hnd : (fl.map (·.1)).Nodup) :
    ∀ e ∈ fl, lookupF fl e.1 = some e.2 := by
  induction fl with
  | nil => intro e he; simp at he
  | cons a t ih =>
    intro e he
    rcases List.mem_cons.mp he with rfl | he'
    · unfold lookupF
      simp [List.find?_cons_of_pos]
    · have ha : a.1 ≠ e.1 := by
        intro hcon
        have : e.1 ∈ t.map (·.1) := List.mem_map.mpr ⟨e, he', rfl⟩
        rw [← hcon] at this
        exact (List.nodup_cons.mp (by simpa using hnd)).1 this
      unfold lookupF
      rw [List.find?_cons_of_neg _ (by simpa using ha)]
      exact ih (List.nodup_cons.mp (by simpa using hnd)).2 e he'

theorem lookupF_eq_none_iff (fl : FieldsMap) (p : Nat) :
    lookupF fl p = none ↔ ∀ e ∈ fl, e.1 ≠ p := by
  unfold lookupF
  rw [Option.map_eq_none', List.find?_eq_none]
  constructor
  · intro h e he
    have := h e he
    simpa using this
  · intro h e he
    simpa using h e he

theorem structFieldsLoop_nodup (fs : List RawField) :
    ∀ (i : Nat) (acc res : FieldsMap),
    structFieldsLoop rowTagOf fs i acc = .ok res →
    (acc.map (·.1)).Nodup → (res.map (·.1)).Nodup := by
  induction fs with
  | nil =>
    intro i acc res h hacc
    unfold structFieldsLoop at h
    cases h
    exact hacc
  | cons f rest ih =>
    intro i acc res h hacc
    unfold structFieldsLoop at h
    split at h
    · exact ih _ _ _ h hacc
    · split at h
      · exact ih _ _ _ h hacc
      · split at h
        · split at h <;> cases h
        · split at h
          · cases h
          · refine ih _ _ _ h ?_
            rename_i hdup
            simp only [List.map_append, List.map_cons, List.map_nil]
            rw [List.nodup_append]
            refine ⟨hacc, by simp, ?_⟩
            intro x hx1 hx2
            simp only [List.mem_singleton] at hx2
            subst hx2
            rcases List.mem_map.mp hx1 with ⟨e, he, hevx⟩
            exact hdup (hevx ▸ lookupF_isSome_of_mem acc e he)

theorem GetStructFields_nodup (t : RType) (fl : FieldsMap)
    (h : GetStructFields t = .ok fl) : (fl.map (·.1)).Nodup := by
  unfold GetStructFields at h
  split at h
  · exact structFieldsLoop_nodup _ _ _ _ h (by simp)
  · exact structFieldsLoop_nodup _ _ _ _ h (by simp)
  · cases h

/-! ## Lemmas: per-type round-trips of format and convert -/

/-- The token value a formatted atom decodes back to. -/
def decOf : GoVal → List Nat
  | .vString s => s
  | .vInt64 n => intToBytes n
  | .vBool b => if b then strBytes "true" else strBytes "false"
  | .vNullString valid s => if valid then s else strBytes "NULL"

/-- The value-level side conditions under which the codec round-trips:
`int64` is inherent to the Go type; a valid `sql.NullString` must not hold
the empty string or a case-insensitive `null` (those decode to invalid); an
invalid one must hold the empty payload (the decoder zeroes it). -/
def valOK : GoVal → Prop
  | .vInt64 n => -(2 ^ 63) ≤ n ∧ n ≤ 2 ^ 63 - 1
  | .vNullString true s => s ≠ [] ∧ eqFoldNull s = false
  | .vNullString false s => s = []
  | _ => True

/-- Field lookup with the default `FieldInfo` (only used under an `isSome`
hypothesis). -/
def fiAt (fl : FieldsMap) (p : Nat) : FieldInfo :=
  (lookupF fl p).getD ⟨"", 0, .tString, {}⟩

theorem stopB_digit {b : Nat} (h : b = 45 ∨ (48 ≤ b ∧ b ≤ 57)) :
    stopB b = false ∧ b ≠ 34 := by
  constructor
  · simp only [stopB, isSpaceB, Bool.or_eq_false_iff, decide_eq_false_iff_not]
    omega
  · omega

theorem atomOK_format (v : GoVal) (h : valOK v) :
    AtomOK (FormatValue v) (decOf v) := by
  cases v with
  | vString s => exact atomOK_escape s
  | vInt64 n =>
    refine atomOK_unquoted (intToBytes n) (intToBytes_ne_nil n) ?_
    intro b hb
    exact stopB_digit (intToBytes_mem n b hb)
  | vBool b =>
    cases b
    · exact atomOK_unquoted (strBytes "false") (by decide) (by decide)
    · exact atomOK_unquoted (strBytes "true") (by decide) (by decide)
  | vNullString valid s =>
    cases valid
    · exact atomOK_unquoted (strBytes "NULL") (by decide) (by decide)
    · exact atomOK_escape s

theorem convert_roundtrip (v : GoVal) (t : GoType) (ht : hasType v t = true)
    (hok : valOK v) (nm : String) (p : Nat) :
    ConvertToType (decOf v) t nm p = .ok v := by
  cases v with
  | vString s =>
    cases t <;> simp_all [hasType]
    rfl
  | vInt64 n =>
    cases t <;> simp_all [hasType]
    show ConvertToType (intToBytes n) .tInt64 nm p = .ok (.vInt64 n)
    unfold ConvertToType
    rw [convertToInt_intToBytes n hok.1 hok.2]
  | vBool b =>
    cases t <;> simp_all [hasType]
    cases b
    · rfl
    · rfl
  | vNullString valid s =>
    cases t <;> simp_all [hasType]
    cases valid
    · show ConvertToType (decOf (.vNullString false s)) .tNullString nm p =
        .ok (.vNullString false s)
      have hs : s = [] := hok
      subst hs
      rfl
    · obtain ⟨h1, h2⟩ := hok
      show ConvertToType s .tNullString nm p = .ok (.vNullString true s)
      unfold ConvertToType
      rw [if_neg]
      simp only [Bool.or_eq_true, decide_eq_true_eq, not_or]
      exact ⟨h1, by simp [h2]⟩

/-! ## Lemmas: Marshal on a contiguous, omitempty-free layout -/

theorem foldlMax_le (l : FieldsMap) (acc n : Nat) (hacc : acc ≤ n)
    (h : ∀ e ∈ l, e.1 ≤ n) :
    l.foldl (fun m e => if e.1 > m then e.1 else m) acc ≤ n := by
  induction l generalizing acc with
  | nil => exact hacc
  | cons a t ih =>
    simp only [List.foldl_cons]
    refine ih _ ?_ (fun e he => h e (by simp [he]))
    have := h a (by simp)
    split <;> omega

theorem le_foldlMax (l : FieldsMap) (acc : Nat) :
    acc ≤ l.foldl (fun m e => if e.1 > m then e.1 else m) acc ∧
    ∀ e ∈ l, e.1 ≤ l.foldl (fun m e => if e.1 > m then e.1 else m) acc := by
  induction l generalizing acc with
  | nil => exact ⟨le_refl _, by simp⟩
  | cons a t ih =>
    simp only [List.foldl_cons]
    obtain ⟨ih1, ih2⟩ := ih (if a.1 > acc then a.1 else acc)
    constructor
    · refine le_trans ?_ ih1
      split <;> omega
    · intro e he
      rcases List.mem_cons.mp he with rfl | he'
      · refine le_trans ?_ ih1
        split <;> omega
      · exact ih2 e he'

theorem getMaxPos_eq (fl : FieldsMap) (n : Nat) (hn : 1 ≤ n)
    (h2 : ∀ p, (lookupF fl p).isSome ↔ (1 ≤ p ∧ p ≤ n)) :
    GetMaxPosition fl = n := by
  have hub : ∀ e ∈ fl, e.1 ≤ n := by
    intro e he
    exact ((h2 e.1).mp (lookupF_isSome_of_mem fl e he)).2
  have hex : ∃ e ∈ fl, e.1 = n := by
    have := (h2 n).mpr ⟨hn, le_refl n⟩
    rcases Option.isSome_iff_exists.mp this with ⟨fi, hfi⟩
    exact ⟨(n, fi), mem_of_lookupF fl n fi hfi, rfl⟩
  unfold GetMaxPosition
  rcases hex with ⟨e, he, hen⟩
  have h1 := foldlMax_le fl 0 n (by omega) hub
  have h3 := (le_foldlMax fl 0).2 e he
  omega

theorem getSortedPositions_eq (fl : FieldsMap) (n : Nat) (hn : 1 ≤ n)
    (h2 : ∀ p, (lookupF fl p).isSome ↔ (1 ≤ p ∧ p ≤ n)) :
    GetSortedPositions fl = List.range' 1 n := by
  have hne : fl ≠ [] := by
    intro hcon
    have := (h2 1).mpr ⟨le_refl 1, hn⟩
    rw [hcon] at this
    simp [lookupF] at this
  unfold GetSortedPositions
  rw [if_neg hne, getMaxPos_eq fl n hn h2]
  rw [List.filter_eq_self]
  intro p hp
  have hmem := List.mem_range'_1.mp hp
  exact (h2 p).mpr ⟨hmem.1, by omega⟩

theorem gapFill_self (fl : FieldsMap) (vals : List GoVal) (k : Nat) :
    gapFill fl vals k k = [] := by
  simp [gapFill]

theorem marshalLoop_contig (fl : FieldsMap) (vals : List GoVal)
    (hoe : ∀ e ∈ fl, e.2.options.omitEmpty = false) :
    ∀ (m k : Nat) (acc : List (List Nat)),
    (∀ p, k + 1 ≤ p → p ≤ k + m → (lookupF fl p).isSome) →
    marshalLoop fl vals (List.range' (k + 1) m) k acc =
      acc ++ (List.range' (k + 1) m).map
        (fun p => FormatValue (getVal vals (fiAt fl p).index)) := by
  intro m
  induction m with
  | zero => intro k acc _; simp [marshalLoop]
  | succ m ih =>
    intro k acc hsome
    have h1 : (lookupF fl (k + 1)).isSome := hsome (k + 1) (le_refl _) (by omega)
    rcases Option.isSome_iff_exists.mp h1 with ⟨fi, hfi⟩
    have hoe1 : fi.options.omitEmpty = false :=
      hoe (k + 1, fi) (mem_of_lookupF fl (k + 1) fi hfi)
    rw [show List.range' (k + 1) (m + 1) = (k + 1) :: List.range' (k + 2) m from rfl]
    unfold marshalLoop
    rw [hfi]
    simp only [hoe1, Bool.false_and, Bool.false_eq_true, if_false, gapFill_self,
      List.append_nil]
    have ih' := ih (k + 1) (acc ++ [FormatValue (getVal vals fi.index)])
      (fun p hp1 hp2 => hsome p (by omega) (by omega))
    rw [show k + 1 + 1 = k + 2 from rfl] at ih'
    rw [ih']
    have hfiAt : fiAt fl (k + 1) = fi := by
      unfold fiAt
      rw [hfi]
      rfl
    simp [hfiAt]

theorem Marshal_contig (fs : List RawField) (vals : List GoVal) (fl : FieldsMap)
    (n : Nat)
    (H1 : GetStructFields (.strct fs) = .ok fl)
    (Hn : 1 ≤ n)
    (H2 : ∀ p, (lookupF fl p).isSome ↔ (1 ≤ p ∧ p ≤ n))
    (hoe : ∀ e ∈ fl, e.2.options.omitEmpty = false) :
    Marshal (.strct fs) vals =
      .ok (BuildRowLiteral ((List.range' 1 n).map
        (fun p => FormatValue (getVal vals (fiAt fl p).index)))) := by
  have hne : fl ≠ [] := by
    intro hcon
    have := (H2 1).mpr ⟨le_refl 1, Hn⟩
    rw [hcon] at this
    simp [lookupF] at this
  unfold Marshal
  rw [H1]
  simp only [hne, if_false]
  rw [getSortedPositions_eq fl n Hn H2]
  have := marshalLoop_contig fl vals hoe n 0 []
    (fun p hp1 hp2 => (H2 p).mpr ⟨hp1, by omega⟩)
  simp only [Nat.zero_add] at this
  rw [this]
  simp

/-! ## Lemmas: the Unmarshal passes -/

theorem pass1_roundtrip (fl : FieldsMap) (vals : List GoVal)
    (hnd : ∀ e ∈ fl, e.2.options.hasDefault = false) :
    ∀ (toks : List Token) (k : Nat) (cur : List GoVal),
    (∀ j, (hj : j < toks.length) → ∃ fi, lookupF fl (k + j + 1) = some fi ∧
        ConvertToType (toks.get ⟨j, hj⟩).value fi.typ fi.name (k + j + 1) =
          .ok (vals.getD fi.index (.vString [])) ∧ fi.index < cur.length) →
    ∃ out, pass1 fl toks k cur = (out, none) ∧ out.length = cur.length ∧
      (∀ j, (∃ i, i < toks.length ∧ ∃ fi,
          lookupF fl (k + i + 1) = some fi ∧ fi.index = j) →
        out.getD j (.vString []) = vals.getD j (.vString [])) ∧
      (∀ j, (∀ i, i < toks.length → ∀ fi, lookupF fl (k + i + 1) = some fi →
          fi.index ≠ j) →
        out.getD j (.vString []) = cur.getD j (.vString [])) := by
  intro toks
  induction toks with
  | nil =>
    intro k cur _
    refine ⟨cur, rfl, rfl, ?_, ?_⟩
    · intro j hj
      rcases hj with ⟨i, hi, _⟩
      simp at hi
    · intro j _
      rfl
  | cons tok toks' ih =>
    intro k cur hc
    obtain ⟨fi, hfi, hconv, hidx⟩ := hc 0 (by simp)
    have hd : fi.options.hasDefault = false :=
      hnd (k + 0 + 1, fi) (mem_of_lookupF fl (k + 0 + 1) fi hfi)
    have hfi1 : lookupF fl (k + 1) = some fi := hfi
    have hconv' : ConvertToType tok.value fi.typ fi.name (k + 1) =
        .ok (vals.getD fi.index (.vString [])) := hconv
    simp only [pass1, selOf, hd, hfi1, Bool.and_false, Bool.false_eq_true, if_false, hconv']
    have hc' : ∀ j, (hj : j < toks'.length) → ∃ fi', lookupF fl ((k + 1) + j + 1) = some fi' ∧
        ConvertToType (toks'.get ⟨j, hj⟩).value fi'.typ fi'.name ((k + 1) + j + 1) =
          .ok (vals.getD fi'.index (.vString [])) ∧
        fi'.index < (cur.set fi.index (vals.getD fi.index (.vString []))).length := by
      intro j hj
      obtain ⟨fi', h1, h2, h3⟩ := hc (j + 1) (by simpa using Nat.succ_lt_succ hj)
      have harith : k + (j + 1) + 1 = (k + 1) + j + 1 := by omega
      rw [harith] at h1 h2
      exact ⟨fi', h1, h2, by simpa using h3⟩
    obtain ⟨out, heq, hlen, hA, hB⟩ :=
      ih (k + 1) (cur.set fi.index (vals.getD fi.index (.vString []))) hc'
    refine ⟨out, heq, by simpa using hlen, ?_, ?_⟩
    · intro j hj
      rcases hj with ⟨i, hi, fi'', hfi'', hidx''⟩
      cases i with
      | zero =>
        have : fi'' = fi := by
          rw [hfi] at hfi''
          exact (Option.some.injEq _ _ ▸ hfi'').symm ▸ rfl
        subst this
        subst hidx''
        by_cases hhit : ∃ i', i' < toks'.length ∧ ∃ g,
            lookupF fl ((k + 1) + i' + 1) = some g ∧ g.index = fi''.index
        · exact hA fi''.index hhit
        · push_neg at hhit
          rw [hB fi''.index (fun i' hi' g hg =>
            hhit i' hi' g hg)]
          exact getD_set_self cur fi''.index _ _ hidx
      | succ i' =>
        refine hA j ⟨i', by simpa using hi, fi'', ?_, hidx''⟩
        have harith : k + (i' + 1) + 1 = (k + 1) + i' + 1 := by omega
        rw [← harith]
        exact hfi''
    · intro j hnone
      have hnone' : ∀ i, i < toks'.length → ∀ g, lookupF fl ((k + 1) + i + 1) = some g →
          g.index ≠ j := by
        intro i hi g hg
        have harith : k + (i + 1) + 1 = (k + 1) + i + 1 := by omega
        exact hnone (i + 1) (by simpa using Nat.succ_lt_succ hi) g (by rw [harith]; exact hg)
      rw [hB j hnone']
      have hne0 : fi.index ≠ j := hnone 0 (by simp) fi hfi
      exact getD_set_ne cur fi.index j _ _ hne0

theorem pass2_noop (tokCount : Nat) :
    ∀ (l : FieldsMap) (cur : List GoVal),
    (∀ e ∈ l, ¬(e.1 > tokCount ∧ e.2.options.hasDefault = true)) →
    pass2 tokCount l cur = (cur, none) := by
  intro l
  induction l with
  | nil => intro cur _; rfl
  | cons e t ih =>
    intro cur h
    obtain ⟨p, fi⟩ := e
    unfold pass2
    rw [if_neg]
    · exact ih cur (fun e' he' => h e' (by simp [he']))
    · intro hcon
      simp only [Bool.and_eq_true, decide_eq_true_eq] at hcon
      exact h (p, fi) (by simp) ⟨hcon.1, hcon.2⟩

theorem unsatRequired_nil (fl : FieldsMap) (tokCount : Nat)
    (h : ∀ p ∈ GetSortedPositions fl, unsatAt fl tokCount p = false) :
    unsatRequired fl tokCount = [] := by
  unfold unsatRequired
  rw [List.filter_eq_nil_iff]
  intro p hp
  rw [h p hp]
  simp

theorem requiredErr_none (fl : FieldsMap) (tokCount : Nat)
    (h : unsatRequired fl tokCount = []) : requiredErr fl tokCount = none := by
  unfold requiredErr
  rw [h]

theorem forall₂_map_map {α : Type} (l : List α) (f g : α → List Nat)
    (h : ∀ x ∈ l, AtomOK (f x) (g x)) :
    List.Forall₂ AtomOK (l.map f) (l.map g) := by
  induction l with
  | nil => exact List.Forall₂.nil
  | cons a t ih =>
    exact List.Forall₂.cons (h a (by simp)) (ih (fun x hx => h x (by simp [hx])))

theorem lookupF_fiAt (fl : FieldsMap) (p : Nat) (h : (lookupF fl p).isSome) :
    lookupF fl p = some (fiAt fl p) := by
  unfold fiAt
  rcases Option.isSome_iff_exists.mp h with ⟨fi, hfi⟩
  rw [hfi]
  rfl

theorem list_eq_of_getD (l1 l2 : List GoVal) (hl : l1.length = l2.length)
    (h : ∀ j, j < l1.length → l1.getD j (.vString []) = l2.getD j (.vString [])) :
    l1 = l2 := by
  induction l1 generalizing l2 with
  | nil =>
    cases l2 with
    | nil => rfl
    | cons b t => simp at hl
  | cons a t ih =>
    cases l2 with
    | nil => simp at hl
    | cons b t2 =>
      have h0 := h 0 (by simp)
      simp only [List.getD_cons_zero] at h0
      subst h0
      congr 1
      refine ih t2 (by simpa using hl) ?_
      intro j hj
      have := h (j + 1) (by simpa using Nat.succ_lt_succ hj)
      simpa using this

/-- C1 (amended): for a struct whose tagged fields cover exactly the
positions `1..n`, none carrying `omitempty` or a default, with int64 values
in range, valid nullable strings holding a payload that is neither empty nor
case-insensitively `null`, invalid nullable strings holding the empty
payload, and untagged fields (if any) zero-valued, `Unmarshal` of the
`Marshal` output into a fresh record reproduces the record. -/
theorem C1_roundtrip_amended (fs : List RawField) (vals : List GoVal)
    (fl : FieldsMap) (n : Nat)
    (H1 : GetStructFields (.strct fs) = .ok fl)
    (Hn : 1 ≤ n)
    (H2 : ∀ p, (lookupF fl p).isSome ↔ (1 ≤ p ∧ p ≤ n))
    (H3 : ∀ e ∈ fl, e.2.options.omitEmpty = false ∧ e.2.options.hasDefault = false ∧
      e.2.index < fs.length ∧ hasType (getVal vals e.2.index) e.2.typ = true ∧
      valOK (getVal vals e.2.index))
    (H4 : vals.length = fs.length)
    (H5 : ∀ j, j < fs.length → (∀ e ∈ fl, e.2.index ≠ j) →
      vals.getD j (.vString []) = (freshRecord (.strct fs)).getD j (.vString [])) :
    ∃ m, Marshal (.strct fs) vals = .ok m ∧
      Unmarshal (.strct fs) (freshRecord (.strct fs)) m = (vals, none) := by
  have hmem_of_p : ∀ p, 1 ≤ p → p ≤ n → (p, fiAt fl p) ∈ fl := by
    intro p h1 h2
    exact mem_of_lookupF fl p _ (lookupF_fiAt fl p ((H2 p).mpr ⟨h1, h2⟩))
  have hrange : ∀ p ∈ List.range' 1 n, 1 ≤ p ∧ p ≤ n := by
    intro p hp
    have := List.mem_range'_1.mp hp
    omega
  -- the formatted atoms and their decoded values
  have hatoms : List.Forall₂ AtomOK
      ((List.range' 1 n).map (fun p => FormatValue (getVal vals (fiAt fl p).index)))
      ((List.range' 1 n).map (fun p => decOf (getVal vals (fiAt fl p).index))) := by
    refine forall₂_map_map _ _ _ ?_
    intro p hp
    obtain ⟨h1, h2⟩ := hrange p hp
    exact atomOK_format _ (H3 (p, fiAt fl p) (hmem_of_p p h1 h2)).2.2.2.2
  have hne : ((List.range' 1 n).map
      (fun p => FormatValue (getVal vals (fiAt fl p).index))) ≠ [] := by
    simp
    omega
  obtain ⟨toks, hparse, hmapv, hlentoks⟩ :=
    ParseRowLiteral_build _ _ hatoms hne
  have hltn : toks.length = n := by
    rw [hlentoks]
    simp
  refine ⟨_, Marshal_contig fs vals fl n H1 Hn H2
    (fun e he => (H3 e he).1), ?_⟩
  -- run Unmarshal
  have hfreshlen : (freshRecord (.strct fs)).length = fs.length := by
    simp [freshRecord]
  -- pass 1 writes back the original values
  have hc : ∀ j, (hj : j < toks.length) → ∃ fi, lookupF fl (0 + j + 1) = some fi ∧
      ConvertToType (toks.get ⟨j, hj⟩).value fi.typ fi.name (0 + j + 1) =
        .ok (vals.getD fi.index (.vString [])) ∧
      fi.index < (freshRecord (.strct fs)).length := by
    intro j hj
    have hjn : j < n := by omega
    have hsome := (H2 (j + 1)).mpr ⟨by omega, by omega⟩
    refine ⟨fiAt fl (j + 1), by simpa using lookupF_fiAt fl (j + 1) hsome, ?_, ?_⟩
    · have hval : (toks.get ⟨j, hj⟩).value =
          decOf (getVal vals (fiAt fl (j + 1)).index) := by
        have hjr : j < (List.range' 1 n).length := by
          simp
          omega
        have hg : (toks.map Token.value)[j]? =
            ((List.range' 1 n).map
              (fun p => decOf (getVal vals (fiAt fl p).index)))[j]? := by
          rw [hmapv]
        rw [List.getElem?_map, List.getElem?_map, List.getElem?_eq_getElem hj,
          List.getElem?_eq_getElem hjr] at hg
        simp only [Option.map_some', List.getElem_range'] at hg
        rw [show 1 + 1 * j = j + 1 from by omega] at hg
        simpa using hg
      rw [hval]
      have hmem := hmem_of_p (j + 1) (by omega) (by omega)
      obtain ⟨_, _, _, hty, hok⟩ := H3 _ hmem
      have := convert_roundtrip (getVal vals (fiAt fl (j + 1)).index)
        (fiAt fl (j + 1)).typ hty hok (fiAt fl (j + 1)).name (0 + j + 1)
      simpa [getVal] using this
    · rw [hfreshlen]
      exact (H3 _ (hmem_of_p (j + 1) (by omega) (by omega))).2.2.1
  obtain ⟨out, hp1, hlenout, hA, hB⟩ :=
    pass1_roundtrip fl vals (fun e he => (H3 e he).2.1) toks 0
      (freshRecord (.strct fs)) hc
  have hnodup := GetStructFields_nodup _ _ H1
  -- the state after pass 1 is the original record
  have hout : out = vals := by
    refine list_eq_of_getD out vals (by rw [hlenout, hfreshlen, H4]) ?_
    intro j hj
    have hjlen : j < fs.length := by
      rw [hlenout, hfreshlen] at hj
      exact hj
    by_cases hhit : ∃ i, i < toks.length ∧ ∃ fi,
        lookupF fl (0 + i + 1) = some fi ∧ fi.index = j
    · exact hA j hhit
    · push_neg at hhit
      rw [hB j (fun i hi fi hfi => hhit i hi fi hfi)]
      refine (H5 j hjlen ?_).symm
      intro e he hcon
      have hsome := lookupF_isSome_of_mem fl e he
      have hpn := (H2 e.1).mp hsome
      have hself := lookupF_self fl hnodup e he
      refine hhit (e.1 - 1) (by omega) e.2 ?_ hcon
      rw [show 0 + (e.1 - 1) + 1 = e.1 from by omega]
      exact hself
  -- pass 2 is a no-op: every position is within the token count
  have hp2 := pass2_noop toks.length fl out (by
    intro e he hcon
    have hpn := (H2 e.1).mp (lookupF_isSome_of_mem fl e he)
    omega)
  -- no unsatisfied required fields
  have hreq : requiredErr fl toks.length = none := by
    refine requiredErr_none fl toks.length (unsatRequired_nil fl toks.length ?_)
    intro p hp
    rw [getSortedPositions_eq fl n Hn H2] at hp
    obtain ⟨h1, h2⟩ := hrange p hp
    unfold unsatAt
    rw [lookupF_fiAt fl p ((H2 p).mpr ⟨h1, h2⟩)]
    have : decide (p > toks.length) = false := by
      simp
      omega
    simp [this]
  rw [hout] at hp1 hp2
  simp only [Unmarshal, hparse, H1, hp1, hp2, hreq]

/-- C1 (counterexample): a valid `sql.NullString` holding the empty string
marshals to `""` but unmarshals to the invalid (NULL) wrapper, so the
round-trip property as stated fails. -/
theorem C1_counterexample :
    Marshal (.strct [⟨"S", true, some (strBytes "1"), .tNullString⟩])
      [.vNullString true []] = .ok [40, 34, 34, 41] ∧
    Unmarshal (.strct [⟨"S", true, some (strBytes "1"), .tNullString⟩])
      (freshRecord (.strct [⟨"S", true, some (strBytes "1"), .tNullString⟩]))
      [40, 34, 34, 41] = ([.vNullString false []], none) ∧
    ([GoVal.vNullString false []] : List GoVal) ≠ [.vNullString true []] := by
  refine ⟨rfl, rfl, by decide⟩

theorem C1_roundtrip_amended_witness :
    ∃ m, Marshal (.strct [⟨"A", true, some (strBytes "1"), .tString⟩,
        ⟨"B", true, some (strBytes "2"), .tNullString⟩])
      [.vString (strBytes "hi"), .vNullString true [120]] = .ok m ∧
      Unmarshal (.strct [⟨"A", true, some (strBytes "1"), .tString⟩,
          ⟨"B", true, some (strBytes "2"), .tNullString⟩])
        (freshRecord (.strct [⟨"A", true, some (strBytes "1"), .tString⟩,
          ⟨"B", true, some (strBytes "2"), .tNullString⟩]))
        m = ([.vString (strBytes "hi"), .vNullString true [120]], none) :=
  C1_roundtrip_amended
    [⟨"A", true, some (strBytes "1"), .tString⟩,
     ⟨"B", true, some (strBytes "2"), .tNullString⟩]
    [.vString (strBytes "hi"), .vNullString true [120]]
    [(1, ⟨"A", 0, .tString, ⟨1, false, false, [], false⟩⟩),
     (2, ⟨"B", 1, .tNullString, ⟨2, false, false, [], false⟩⟩)] 2
    rfl
    (by decide)
    (by
      intro p
      by_cases h1 : p = 1
      · subst h1
        decide
      · by_cases h2 : p = 2
        · subst h2
          decide
        · have g1 : (1 : Nat) ≠ p := Ne.symm h1
          have g2 : (2 : Nat) ≠ p := Ne.symm h2
          simp [lookupF, List.find?, g1, g2]
          omega)
    (by
      intro e he
      simp only [List.mem_cons, List.not_mem_nil, or_false] at he
      rcases he with rfl | rfl
      · exact ⟨rfl, rfl, by decide, by decide, trivial⟩
      · exact ⟨rfl, rfl, by decide, by decide, ⟨by decide, by decide⟩⟩)
    (by decide)
    (by
      intro j hj hne
      exfalso
      have hj2 : j < 2 := hj
      interval_cases j
      · exact hne (1, ⟨"A", 0, .tString, ⟨1, false, false, [], false⟩⟩)
          (by simp) rfl
      · exact hne (2, ⟨"B", 1, .tNullString, ⟨2, false, false, [], false⟩⟩)
          (by simp) rfl)

theorem pass1_writes (fl : FieldsMap) :
    ∀ (toks : List Token) (i : Nat) (vals out : List GoVal),
    pass1 fl toks i vals = (out, none) →
    (∀ e ∈ fl, e.2.index < vals.length) →
    out.length = vals.length ∧
    (∀ j, (∀ k, k < toks.length → ∀ fi, lookupF fl (i + k + 1) = some fi →
        fi.index ≠ j) →
      out.getD j (.vString []) = vals.getD j (.vString [])) ∧
    (∀ k, (hk : k < toks.length) → ∀ fi, lookupF fl (i + k + 1) = some fi →
      (∀ kk, kk < toks.length → kk ≠ k → ∀ fi', lookupF fl (i + kk + 1) = some fi' →
        fi'.index ≠ fi.index) →
      ∃ v, ConvertToType (selOf (toks.get ⟨k, hk⟩) fi) fi.typ fi.name (i + k + 1) = .ok v ∧
        out.getD fi.index (.vString []) = v) := by
  intro toks
  induction toks with
  | nil =>
    intro i vals out h _
    simp only [pass1] at h
    injection h with h1 h2
    subst h1
    refine ⟨rfl, fun j _ => rfl, ?_⟩
    intro k hk
    simp at hk
  | cons tok rest ih =>
    intro i vals out h hb
    simp only [pass1] at h
    rcases hl : lookupF fl (i + 1) with _ | fi
    · rw [hl] at h
      obtain ⟨hlen, hun, hhit⟩ := ih (i + 1) vals out h hb
      refine ⟨hlen, ?_, ?_⟩
      · intro j hno
        refine hun j ?_
        intro k hk g hg
        have harith : (i + 1) + k + 1 = i + (k + 1) + 1 := by omega
        rw [harith] at hg
        exact hno (k + 1) (by simpa using Nat.succ_lt_succ hk) g hg
      · intro k hk g hg huniq
        cases k with
        | zero =>
          exfalso
          have hg' : lookupF fl (i + 1) = some g := by simpa using hg
          rw [hl] at hg'
          exact Option.noConfusion hg'
        | succ k' =>
          have hk' : k' < rest.length := by simpa using hk
          have huniq' : ∀ kk, kk < rest.length → kk ≠ k' → ∀ fi',
              lookupF fl ((i + 1) + kk + 1) = some fi' → fi'.index ≠ g.index := by
            intro kk hkk hne fi' hfi'
            have harith : (i + 1) + kk + 1 = i + (kk + 1) + 1 := by omega
            rw [harith] at hfi'
            exact huniq (kk + 1) (by simpa using Nat.succ_lt_succ hkk) (by omega) fi' hfi'
          have harith : (i + 1) + k' + 1 = i + (k' + 1) + 1 := by omega
          have hgr : lookupF fl ((i + 1) + k' + 1) = some g := by
            rw [harith]
            exact hg
          obtain ⟨v', hcv', hv'⟩ := hhit k' hk' g hgr huniq'
          refine ⟨v', ?_, hv'⟩
          rw [show i + (k' + 1) + 1 = (i + 1) + k' + 1 from by omega]
          exact hcv'
    · rw [hl] at h
      have h' : (match ConvertToType (selOf tok fi) fi.typ fi.name (i + 1) with
          | .error e => (vals, some e)
          | .ok v => pass1 fl rest (i + 1) (vals.set fi.index v)) = (out, none) := h
      rcases hcv : ConvertToType (selOf tok fi) fi.typ fi.name (i + 1) with e | v
      · rw [hcv] at h'
        have h2 : ((vals, some e) : List GoVal × Option UErr) = (out, none) := h'
        injection h2 with h2a h2b
        exact Option.noConfusion h2b
      · rw [hcv] at h'
        have h2 : pass1 fl rest (i + 1) (vals.set fi.index v) = (out, none) := h'
        have hb' : ∀ e ∈ fl, e.2.index < (vals.set fi.index v).length := by
          intro e he
          simpa using hb e he
        obtain ⟨hlen, hun, hhit⟩ := ih (i + 1) (vals.set fi.index v) out h2 hb'
        have hfiv : fi.index < vals.length :=
          hb (i + 1, fi) (mem_of_lookupF fl (i + 1) fi hl)
        refine ⟨by simpa using hlen, ?_, ?_⟩
        · intro j hno
          have hno' : ∀ k, k < rest.length → ∀ g,
              lookupF fl ((i + 1) + k + 1) = some g → g.index ≠ j := by
            intro k hk g hg
            have harith : (i + 1) + k + 1 = i + (k + 1) + 1 := by omega
            rw [harith] at hg
            exact hno (k + 1) (by simpa using Nat.succ_lt_succ hk) g hg
          rw [hun j hno']
          exact getD_set_ne vals fi.index j v (.vString [])
            (hno 0 (by simp) fi (by simpa using hl))
        · intro k hk g hg huniq
          cases k with
          | zero =>
            have hg' : fi = g := by
              have hgg : lookupF fl (i + 1) = some g := by simpa using hg
              rw [hl] at hgg
              exact Option.some.inj hgg
            subst hg'
            refine ⟨v, hcv, ?_⟩
            have hun' : ∀ kk, kk < rest.length → ∀ fi',
                lookupF fl ((i + 1) + kk + 1) = some fi' → fi'.index ≠ fi.index := by
              intro kk hkk fi' hfi'
              have harith : (i + 1) + kk + 1 = i + (kk + 1) + 1 := by omega
              rw [harith] at hfi'
              exact huniq (kk + 1) (by simpa using Nat.succ_lt_succ hkk) (by omega) fi' hfi'
            rw [hun fi.index hun']
            exact getD_set_self vals fi.index v (.vString []) hfiv
          | succ k' =>
            have hk' : k' < rest.length := by simpa using hk
            have huniq' : ∀ kk, kk < rest.length → kk ≠ k' → ∀ fi',
                lookupF fl ((i + 1) + kk + 1) = some fi' → fi'.index ≠ g.index := by
              intro kk hkk hne fi' hfi'
              have harith : (i + 1) + kk + 1 = i + (kk + 1) + 1 := by omega
              rw [harith] at hfi'
              exact huniq (kk + 1) (by simpa using Nat.succ_lt_succ hkk) (by omega) fi' hfi'
            have harith : (i + 1) + k' + 1 = i + (k' + 1) + 1 := by omega
            have hgr : lookupF fl ((i + 1) + k' + 1) = some g := by
              rw [harith]
              exact hg
            obtain ⟨v', hcv', hv'⟩ := hhit k' hk' g hgr huniq'
            refine ⟨v', ?_, hv'⟩
            rw [show i + (k' + 1) + 1 = (i + 1) + k' + 1 from by omega]
            exact hcv'

theorem pass1_err (fl : FieldsMap) :
    ∀ (toks : List Token) (i : Nat) (vals out : List GoVal) (e : UErr),
    pass1 fl toks i vals = (out, some e) →
    (∀ ee ∈ fl, ee.2.index < vals.length) →
    ∃ k, ∃ hk : k < toks.length, ∃ fi, lookupF fl (i + k + 1) = some fi ∧
      ConvertToType (selOf (toks.get ⟨k, hk⟩) fi) fi.typ fi.name (i + k + 1) = .error e ∧
      out.length = vals.length ∧
      (∀ j, (∀ kk, kk < k → ∀ fi', lookupF fl (i + kk + 1) = some fi' →
          fi'.index ≠ j) →
        out.getD j (.vString []) = vals.getD j (.vString [])) ∧
      (∀ kk, ∀ hkk : kk < k, ∀ fi', lookupF fl (i + kk + 1) = some fi' →
        (∀ k2, k2 < k → k2 ≠ kk → ∀ fi2, lookupF fl (i + k2 + 1) = some fi2 →
          fi2.index ≠ fi'.index) →
        ∃ v, ConvertToType (selOf (toks.get ⟨kk, by omega⟩) fi') fi'.typ fi'.name
            (i + kk + 1) = .ok v ∧
          out.getD fi'.index (.vString []) = v) := by
  intro toks
  induction toks with
  | nil =>
    intro i vals out e h _
    simp only [pass1] at h
    injection h with h1 h2
    exact Option.noConfusion h2
  | cons tok rest ih =>
    intro i vals out e h hb
    simp only [pass1] at h
    rcases hl : lookupF fl (i + 1) with _ | fi
    · rw [hl] at h
      have h2 : pass1 fl rest (i + 1) vals = (out, some e) := h
      obtain ⟨k, hk, fi, hfi, hcv, hlen, hun, hhit⟩ := ih (i + 1) vals out e h2 hb
      have harith : (i + 1) + k + 1 = i + (k + 1) + 1 := by omega
      refine ⟨k + 1, by simpa using Nat.succ_lt_succ hk, fi, by rw [← harith]; exact hfi,
        by rw [show i + (k + 1) + 1 = (i + 1) + k + 1 from by omega]; exact hcv, hlen, ?_, ?_⟩
      · intro j hno
        refine hun j ?_
        intro kk hkk g hg
        have ha2 : (i + 1) + kk + 1 = i + (kk + 1) + 1 := by omega
        rw [ha2] at hg
        exact hno (kk + 1) (by omega) g hg
      · intro kk hkk g hg huniq
        cases kk with
        | zero =>
          exfalso
          have hg' : lookupF fl (i + 1) = some g := by simpa using hg
          rw [hl] at hg'
          exact Option.noConfusion hg'
        | succ kk' =>
          have hkk' : kk' < k := by omega
          have ha2 : (i + 1) + kk' + 1 = i + (kk' + 1) + 1 := by omega
          have hgr : lookupF fl ((i + 1) + kk' + 1) = some g := by
            rw [ha2]
            exact hg
          have huniq' : ∀ k2, k2 < k → k2 ≠ kk' → ∀ fi2,
              lookupF fl ((i + 1) + k2 + 1) = some fi2 → fi2.index ≠ g.index := by
            intro k2 hk2 hne fi2 hfi2
            have ha3 : (i + 1) + k2 + 1 = i + (k2 + 1) + 1 := by omega
            rw [ha3] at hfi2
            exact huniq (k2 + 1) (by omega) (by omega) fi2 hfi2
          obtain ⟨v, hcv', hv⟩ := hhit kk' hkk' g hgr huniq'
          refine ⟨v, ?_, hv⟩
          rw [show i + (kk' + 1) + 1 = (i + 1) + kk' + 1 from by omega]
          exact hcv'
    · rw [hl] at h
      have h' : (match ConvertToType (selOf tok fi) fi.typ fi.name (i + 1) with
          | .error e => (vals, some e)
          | .ok v => pass1 fl rest (i + 1) (vals.set fi.index v)) = (out, some e) := h
      rcases hcv : ConvertToType (selOf tok fi) fi.typ fi.name (i + 1) with e0 | v
      · rw [hcv] at h'
        have h2 : ((vals, some e0) : List GoVal × Option UErr) = (out, some e) := h'
        injection h2 with h2a h2b
        injection h2b with h2c
        subst h2a
        subst h2c
        refine ⟨0, by simp, fi, by simpa using hl, hcv, rfl, ?_, ?_⟩
        · intro j _
          rfl
        · intro kk hkk
          omega
      · rw [hcv] at h'
        have h2 : pass1 fl rest (i + 1) (vals.set fi.index v) = (out, some e) := h'
        have hb' : ∀ ee ∈ fl, ee.2.index < (vals.set fi.index v).length := by
          intro ee hee
          simpa using hb ee hee
        obtain ⟨k, hk, g, hg, hcve, hlen, hun, hhit⟩ := ih (i + 1) (vals.set fi.index v) out e h2 hb'
        have hfiv : fi.index < vals.length :=
          hb (i + 1, fi) (mem_of_lookupF fl (i + 1) fi hl)
        have harith : (i + 1) + k + 1 = i + (k + 1) + 1 := by omega
        refine ⟨k + 1, by simpa using Nat.succ_lt_succ hk, g, by rw [← harith]; exact hg,
          by rw [show i + (k + 1) + 1 = (i + 1) + k + 1 from by omega]; exact hcve,
          by simpa using hlen, ?_, ?_⟩
        · intro j hno
          have hno' : ∀ kk, kk < k → ∀ g2,
              lookupF fl ((i + 1) + kk + 1) = some g2 → g2.index ≠ j := by
            intro kk hkk g2 hg2
            have ha2 : (i + 1) + kk + 1 = i + (kk + 1) + 1 := by omega
            rw [ha2] at hg2
            exact hno (kk + 1) (by omega) g2 hg2
          rw [hun j hno']
          exact getD_set_ne vals fi.index j v (.vString [])
            (hno 0 (by omega) fi (by simpa using hl))
        · intro kk hkk g2 hg2 huniq
          cases kk with
          | zero =>
            have hg2' : fi = g2 := by
              have hgg : lookupF fl (i + 1) = some g2 := by simpa using hg2
              rw [hl] at hgg
              exact Option.some.inj hgg
            subst hg2'
            refine ⟨v, hcv, ?_⟩
            have hun' : ∀ kk2, kk2 < k → ∀ fi',
                lookupF fl ((i + 1) + kk2 + 1) = some fi' → fi'.index ≠ fi.index := by
              intro kk2 hkk2 fi' hfi'
              have ha2 : (i + 1) + kk2 + 1 = i + (kk2 + 1) + 1 := by omega
              rw [ha2] at hfi'
              exact huniq (kk2 + 1) (by omega) (by omega) fi' hfi'
            rw [hun fi.index hun']
            exact getD_set_self vals fi.index v (.vString []) hfiv
          | succ kk' =>
            have hkk' : kk' < k := by omega
            have ha2 : (i + 1) + kk' + 1 = i + (kk' + 1) + 1 := by omega
            have hgr : lookupF fl ((i + 1) + kk' + 1) = some g2 := by
              rw [ha2]
              exact hg2
            have huniq' : ∀ k2, k2 < k → k2 ≠ kk' → ∀ fi2,
                lookupF fl ((i + 1) + k2 + 1) = some fi2 → fi2.index ≠ g2.index := by
              intro k2 hk2 hne fi2 hfi2
              have ha3 : (i + 1) + k2 + 1 = i + (k2 + 1) + 1 := by omega
              rw [ha3] at hfi2
              exact huniq (k2 + 1) (by omega) (by omega) fi2 hfi2
            obtain ⟨v2, hcv2, hv2⟩ := hhit kk' hkk' g2 hgr huniq'
            refine ⟨v2, ?_, hv2⟩
            rw [show i + (kk' + 1) + 1 = (i + 1) + kk' + 1 from by omega]
            exact hcv2

theorem pass2_writes (tokCount : Nat) :
    ∀ (fl2 : FieldsMap) (vals out : List GoVal),
    pass2 tokCount fl2 vals = (out, none) →
    (∀ ee ∈ fl2, ee.2.index < vals.length) →
    (fl2.map (fun x => x.1)).Nodup →
    out.length = vals.length ∧
    (∀ j, (∀ p fi, (p, fi) ∈ fl2 → p > tokCount → fi.options.hasDefault = true →
        fi.index ≠ j) →
      out.getD j (.vString []) = vals.getD j (.vString [])) ∧
    (∀ p fi, (p, fi) ∈ fl2 → p > tokCount → fi.options.hasDefault = true →
      (∀ p' fi', (p', fi') ∈ fl2 → p' ≠ p → fi'.index ≠ fi.index) →
      ∃ v, ConvertToType fi.options.dflt fi.typ fi.name p = .ok v ∧
        out.getD fi.index (.vString []) = v) := by
  intro fl2
  induction fl2 with
  | nil =>
    intro vals out h _ _
    simp only [pass2] at h
    injection h with h1 h2
    subst h1
    refine ⟨rfl, fun j _ => rfl, ?_⟩
    intro p fi hm
    simp at hm
  | cons ee rest ih =>
    obtain ⟨pos, fi0⟩ := ee
    intro vals out h hb hnd
    have hnd' : (rest.map (fun x => x.1)).Nodup := (List.nodup_cons.mp hnd).2
    have hpos : pos ∉ rest.map (fun x => x.1) := (List.nodup_cons.mp hnd).1
    simp only [pass2] at h
    split at h
    · rename_i hgb
      have hgt : pos > tokCount := by
        have := (Bool.and_eq_true _ _).mp hgb
        exact of_decide_eq_true this.1
      have hdf : fi0.options.hasDefault = true := ((Bool.and_eq_true _ _).mp hgb).2
      have h' : (match ConvertToType fi0.options.dflt fi0.typ fi0.name pos with
          | .error e => (vals, some e)
          | .ok v => pass2 tokCount rest (vals.set fi0.index v)) = (out, none) := h
      rcases hcv : ConvertToType fi0.options.dflt fi0.typ fi0.name pos with e | v
      · rw [hcv] at h'
        have h2 : ((vals, some e) : List GoVal × Option UErr) = (out, none) := h'
        injection h2 with h2a h2b
        exact Option.noConfusion h2b
      · rw [hcv] at h'
        have h2 : pass2 tokCount rest (vals.set fi0.index v) = (out, none) := h'
        have hb' : ∀ ee ∈ rest, ee.2.index < (vals.set fi0.index v).length := by
          intro ee hee
          simpa using hb ee (List.mem_cons_of_mem _ hee)
        obtain ⟨hlen, hun, hhit⟩ := ih (vals.set fi0.index v) out h2 hb' hnd'
        have hfiv : fi0.index < vals.length := hb (pos, fi0) (List.mem_cons_self _ _)
        refine ⟨by simpa using hlen, ?_, ?_⟩
        · intro j hno
          have hno' : ∀ p fi, (p, fi) ∈ rest → p > tokCount →
              fi.options.hasDefault = true → fi.index ≠ j := by
            intro p fi hm hp hd
            exact hno p fi (List.mem_cons_of_mem _ hm) hp hd
          rw [hun j hno']
          exact getD_set_ne vals fi0.index j v (.vString [])
            (hno pos fi0 (List.mem_cons_self _ _) hgt hdf)
        · intro p fi hm hp hd huniq
          rcases List.mem_cons.mp hm with heq | hm'
          · have hpq : p = pos := congrArg Prod.fst heq
            have hfq : fi = fi0 := congrArg Prod.snd heq
            subst hpq
            subst hfq
            refine ⟨v, hcv, ?_⟩
            have hun' : ∀ p' fi', (p', fi') ∈ rest → p' > tokCount →
                fi'.options.hasDefault = true → fi'.index ≠ fi.index := by
              intro p' fi' hm' hp' hd'
              have hne : p' ≠ p := by
                intro hcontra
                subst hcontra
                exact hpos (List.mem_map.mpr ⟨(p', fi'), hm', rfl⟩)
              exact huniq p' fi' (List.mem_cons_of_mem _ hm') hne
            rw [hun fi.index hun']
            exact getD_set_self vals fi.index v (.vString []) hfiv
          · have huniq' : ∀ p' fi', (p', fi') ∈ rest → p' ≠ p →
                fi'.index ≠ fi.index := by
              intro p' fi' hm2 hne
              exact huniq p' fi' (List.mem_cons_of_mem _ hm2) hne
            obtain ⟨v2, hcv2, hv2⟩ := hhit p fi hm' hp hd huniq'
            refine ⟨v2, hcv2, ?_⟩
            exact hv2
    · rename_i hgb
      have h2 : pass2 tokCount rest vals = (out, none) := h
      have hb' : ∀ ee ∈ rest, ee.2.index < vals.length := by
        intro ee hee
        exact hb ee (List.mem_cons_of_mem _ hee)
      obtain ⟨hlen, hun, hhit⟩ := ih vals out h2 hb' hnd'
      refine ⟨hlen, ?_, ?_⟩
      · intro j hno
        refine hun j ?_
        intro p fi hm hp hd
        exact hno p fi (List.mem_cons_of_mem _ hm) hp hd
      · intro p fi hm hp hd huniq
        rcases List.mem_cons.mp hm with heq | hm'
        · exfalso
          have hpq : p = pos := congrArg Prod.fst heq
          have hfq : fi = fi0 := congrArg Prod.snd heq
          subst hpq
          subst hfq
          simp [hp, hd] at hgb
        · have huniq' : ∀ p' fi', (p', fi') ∈ rest → p' ≠ p →
              fi'.index ≠ fi.index := by
            intro p' fi' hm2 hne
            exact huniq p' fi' (List.mem_cons_of_mem _ hm2) hne
          exact hhit p fi hm' hp hd huniq'

theorem unsatRequired_pairwise (fl : FieldsMap) (tokCount : Nat) :
    List.Pairwise (· < ·) (unsatRequired fl tokCount) := by
  have h1 : List.Pairwise (· < ·) (GetSortedPositions fl) := by
    unfold GetSortedPositions
    split
    · simp
    · exact List.Pairwise.sublist (List.filter_sublist _)
        (List.pairwise_lt_range' 1 (GetMaxPosition fl))
  exact List.Pairwise.sublist (List.filter_sublist _) h1

theorem unsatAt_isSome (fl : FieldsMap) (tokCount p : Nat)
    (h : unsatAt fl tokCount p = true) : (lookupF fl p).isSome := by
  unfold unsatAt at h
  rcases hl : lookupF fl p with _ | fi
  · rw [hl] at h
    exact Bool.noConfusion h
  · simp

/-- C4 (counterexample): with two unsatisfied required fields the check at
the end of `Unmarshal` returns the error for whichever entry the unspecified
(randomized) Go map iteration yields first: the enumerations `[1, 2]` and
`[2, 1]` of the tracked positions are both admissible, yet they produce
validation errors naming different fields, so the program does not guarantee
an error naming the first such field. -/
theorem C4_counterexample :
    GetStructFields (.strct
      [⟨"A", true, some (strBytes "1,required"), .tString⟩,
       ⟨"B", true, some (strBytes "2,required"), .tString⟩]) =
      .ok [(1, ⟨"A", 0, .tString, ⟨1, false, true, [], false⟩⟩),
           (2, ⟨"B", 1, .tString, ⟨2, false, true, [], false⟩⟩)] ∧
    GetSortedPositions
      [(1, ⟨"A", 0, .tString, ⟨1, false, true, [], false⟩⟩),
       (2, ⟨"B", 1, .tString, ⟨2, false, true, [], false⟩⟩)] = [1, 2] ∧
    List.Perm [2, 1] [1, 2] ∧
    unsatAt [(1, ⟨"A", 0, .tString, ⟨1, false, true, [], false⟩⟩),
      (2, ⟨"B", 1, .tString, ⟨2, false, true, [], false⟩⟩)] 0 1 = true ∧
    unsatAt [(1, ⟨"A", 0, .tString, ⟨1, false, true, [], false⟩⟩),
      (2, ⟨"B", 1, .tString, ⟨2, false, true, [], false⟩⟩)] 0 2 = true ∧
    requiredErrOrd [1, 2]
      [(1, ⟨"A", 0, .tString, ⟨1, false, true, [], false⟩⟩),
       (2, ⟨"B", 1, .tString, ⟨2, false, true, [], false⟩⟩)] 0 =
      some (.validation "A" [] "required field at position 1 is missing") ∧
    requiredErrOrd [2, 1]
      [(1, ⟨"A", 0, .tString, ⟨1, false, true, [], false⟩⟩),
       (2, ⟨"B", 1, .tString, ⟨2, false, true, [], false⟩⟩)] 0 =
      some (.validation "B" [] "required field at position 2 is missing") ∧
    (some (UErr.validation "B" [] "required field at position 2 is missing") ≠
      some (UErr.validation "A" [] "required field at position 1 is missing")) := by
  exact ⟨rfl, rfl, by decide, rfl, rfl, rfl, rfl, by decide⟩

/-- C4 (amended): when both passes of `Unmarshal` succeed, a declared
default is applied exactly when the field's token is empty or the field's
position is beyond the token count (otherwise the token text is decoded);
under every enumeration of the tracked positions, the required check fails
exactly when some required field is unsatisfied, and the resulting
`ValidationError` names an unsatisfied required field — which one depends on
the unspecified Go map iteration order, and this model's `Unmarshal` commits
to the ascending enumeration; `UnmarshalStrict` fails with a
`ValidationError` exactly when the token count exceeds the maximum declared
position, behaving as `Unmarshal` otherwise. -/
theorem C4_defaults_required_amended
    (t : RType) (init : List GoVal) (data : List Nat)
    (toks : List Token) (fl : FieldsMap) (vals1 vals2 : List GoVal)
    (hparse : ParseRowLiteral data = .ok toks)
    (hfl : GetStructFields t = .ok fl)
    (hinj : ∀ a ∈ fl, ∀ b ∈ fl, a.1 ≠ b.1 → a.2.index ≠ b.2.index)
    (hbound : ∀ e ∈ fl, e.2.index < init.length)
    (hp1 : pass1 fl toks 0 init = (vals1, none))
    (hp2 : pass2 toks.length fl vals1 = (vals2, none)) :
    Unmarshal t init data =
      (vals2, requiredErrOrd (GetSortedPositions fl) fl toks.length) ∧
    (∀ p fi, lookupF fl p = some fi → 1 ≤ p → fi.options.hasDefault = true →
      ((∀ hp : p - 1 < toks.length, (toks.get ⟨p - 1, hp⟩).value = [] →
        ∃ v, ConvertToType fi.options.dflt fi.typ fi.name p = .ok v ∧
          vals2.getD fi.index (.vString []) = v) ∧
      (p > toks.length →
        ∃ v, ConvertToType fi.options.dflt fi.typ fi.name p = .ok v ∧
          vals2.getD fi.index (.vString []) = v) ∧
      (∀ hp : p - 1 < toks.length, (toks.get ⟨p - 1, hp⟩).value ≠ [] →
        ∃ v, ConvertToType (toks.get ⟨p - 1, hp⟩).value fi.typ fi.name p = .ok v ∧
          vals2.getD fi.index (.vString []) = v))) ∧
    (∀ order : List Nat, (∀ x, x ∈ order ↔ x ∈ GetSortedPositions fl) →
      (requiredErrOrd order fl toks.length = none ↔
        unsatRequired fl toks.length = []) ∧
      (∀ e, requiredErrOrd order fl toks.length = some e →
        ∃ p fi, lookupF fl p = some fi ∧ unsatAt fl toks.length p = true ∧
          e = .validation fi.name []
            ("required field at position " ++ toString p ++ " is missing"))) ∧
    (toks.length > GetMaxPosition fl →
      UnmarshalStrict t init data =
        (init, some (.validation "" [] "row has more values than struct has tagged fields"))) ∧
    (¬ toks.length > GetMaxPosition fl →
      UnmarshalStrict t init data = Unmarshal t init data) := by
  have hndpos : (fl.map (fun x => x.1)).Nodup := GetStructFields_nodup t fl hfl
  obtain ⟨hlen1, hun1, hhit1⟩ := pass1_writes fl toks 0 init vals1 hp1 hbound
  have hb2 : ∀ e ∈ fl, e.2.index < vals1.length := by
    intro e he
    rw [hlen1]
    exact hbound e he
  obtain ⟨hlen2, hun2, hhit2⟩ := pass2_writes toks.length fl vals1 vals2 hp2 hb2 hndpos
  have hre : requiredErr fl toks.length =
      requiredErrOrd (GetSortedPositions fl) fl toks.length := by
    unfold requiredErr requiredErrOrd unsatRequired
    rcases hfo : (GetSortedPositions fl).filter (unsatAt fl toks.length) with _ | ⟨p, r⟩
    · simp [hfo]
    · simp only [hfo]
  have hmain : Unmarshal t init data = (vals2, requiredErr fl toks.length) := by
    simp only [Unmarshal, hparse, hfl, hp1, hp2]
    cases hrc : requiredErr fl toks.length <;> simp [hrc]
  refine ⟨by rw [hmain, hre], ?_, ?_, ?_, ?_⟩
  · intro p fi hlf h1p hdf
    have hmem : (p, fi) ∈ fl := mem_of_lookupF fl p fi hlf
    refine ⟨?_, ?_, ?_⟩
    · -- empty token at position p: the default is decoded
      intro hp htok
      have hfi' : lookupF fl (0 + (p - 1) + 1) = some fi := by
        rw [show 0 + (p - 1) + 1 = p from by omega]
        exact hlf
      have huniq : ∀ kk, kk < toks.length → kk ≠ p - 1 → ∀ fi',
          lookupF fl (0 + kk + 1) = some fi' → fi'.index ≠ fi.index := by
        intro kk hkk hne fi' hfi2
        exact hinj (0 + kk + 1, fi') (mem_of_lookupF fl _ fi' hfi2) (p, fi) hmem (by omega)
      obtain ⟨v, hcv, hv1⟩ := hhit1 (p - 1) hp fi hfi' huniq
      rw [show selOf (toks.get ⟨p - 1, hp⟩) fi = fi.options.dflt from by
        unfold selOf
        rw [htok, hdf]
        simp] at hcv
      rw [show 0 + (p - 1) + 1 = p from by omega] at hcv
      refine ⟨v, hcv, ?_⟩
      have hno : ∀ p' fi', (p', fi') ∈ fl → p' > toks.length →
          fi'.options.hasDefault = true → fi'.index ≠ fi.index := by
        intro p' fi' hm' hp' _
        exact hinj (p', fi') hm' (p, fi) hmem (by omega)
      rw [hun2 fi.index hno]
      exact hv1
    · -- position beyond the token count: pass two decodes the default
      intro hgt
      have huniq : ∀ p' fi', (p', fi') ∈ fl → p' ≠ p → fi'.index ≠ fi.index := by
        intro p' fi' hm' hne
        exact hinj (p', fi') hm' (p, fi) hmem hne
      exact hhit2 p fi hmem hgt hdf huniq
    · -- non-empty token at position p: the token text is decoded
      intro hp htok
      have hfi' : lookupF fl (0 + (p - 1) + 1) = some fi := by
        rw [show 0 + (p - 1) + 1 = p from by omega]
        exact hlf
      have huniq : ∀ kk, kk < toks.length → kk ≠ p - 1 → ∀ fi',
          lookupF fl (0 + kk + 1) = some fi' → fi'.index ≠ fi.index := by
        intro kk hkk hne fi' hfi2
        exact hinj (0 + kk + 1, fi') (mem_of_lookupF fl _ fi' hfi2) (p, fi) hmem (by omega)
      obtain ⟨v, hcv, hv1⟩ := hhit1 (p - 1) hp fi hfi' huniq
      have hdec : decide ((toks.get ⟨p - 1, hp⟩).value = []) = false :=
        decide_eq_false htok
      rw [show selOf (toks.get ⟨p - 1, hp⟩) fi = (toks.get ⟨p - 1, hp⟩).value from by
        unfold selOf
        rw [hdec]
        simp] at hcv
      rw [show 0 + (p - 1) + 1 = p from by omega] at hcv
      refine ⟨v, hcv, ?_⟩
      have hple : p ≤ toks.length := by omega
      have hno : ∀ p' fi', (p', fi') ∈ fl → p' > toks.length →
          fi'.options.hasDefault = true → fi'.index ≠ fi.index := by
        intro p' fi' hm' hp' _
        exact hinj (p', fi') hm' (p, fi) hmem (by omega)
      rw [hun2 fi.index hno]
      exact hv1
  · intro order horder
    constructor
    · rcases hfo : order.filter (unsatAt fl toks.length) with _ | ⟨p, r⟩
      · simp only [requiredErrOrd, hfo]
        constructor
        · intro _
          rw [List.eq_nil_iff_forall_not_mem]
          intro q hq
          have h1 := List.mem_filter.mp hq
          have hqo : q ∈ order := (horder q).mpr h1.1
          have hqf : q ∈ order.filter (unsatAt fl toks.length) :=
            List.mem_filter.mpr ⟨hqo, h1.2⟩
          rw [hfo] at hqf
          simp at hqf
        · intro _
          trivial
      · have hp : p ∈ order.filter (unsatAt fl toks.length) := by
          rw [hfo]
          exact List.mem_cons_self _ _
        have h1 := List.mem_filter.mp hp
        have hlf := lookupF_fiAt fl p (unsatAt_isSome fl toks.length p h1.2)
        simp only [requiredErrOrd, hfo, hlf]
        constructor
        · intro h
          exact Option.noConfusion h
        · intro hun
          exfalso
          have hmemp : p ∈ GetSortedPositions fl := (horder p).mp h1.1
          have hq : p ∈ unsatRequired fl toks.length :=
            List.mem_filter.mpr ⟨hmemp, h1.2⟩
          rw [hun] at hq
          simp at hq
    · intro e he
      rcases hfo : order.filter (unsatAt fl toks.length) with _ | ⟨p, r⟩
      · simp only [requiredErrOrd, hfo] at he
        exact Option.noConfusion he
      · have hp : p ∈ order.filter (unsatAt fl toks.length) := by
          rw [hfo]
          exact List.mem_cons_self _ _
        have h1 := List.mem_filter.mp hp
        have hlf := lookupF_fiAt fl p (unsatAt_isSome fl toks.length p h1.2)
        simp only [requiredErrOrd, hfo, hlf] at he
        refine ⟨p, fiAt fl p, hlf, h1.2, ?_⟩
        injection he with he2
        exact he2.symm
  · intro hgt
    simp only [UnmarshalStrict, hparse, hfl]
    rw [if_pos hgt]
  · intro hgt
    simp only [UnmarshalStrict, hparse, hfl]
    rw [if_neg hgt]

theorem C4_defaults_required_amended_witness :
    Unmarshal (.strct [⟨"A", true, some (strBytes "1,default=d"), .tString⟩])
      (freshRecord (.strct [⟨"A", true, some (strBytes "1,default=d"), .tString⟩]))
      (strBytes "(x)") = ([.vString [120]], none) :=
  (C4_defaults_required_amended
    (.strct [⟨"A", true, some (strBytes "1,default=d"), .tString⟩])
    (freshRecord (.strct [⟨"A", true, some (strBytes "1,default=d"), .tString⟩]))
    (strBytes "(x)")
    [⟨[120], [120], false, 1⟩]
    [(1, ⟨"A", 0, .tString, ⟨1, false, false, [100], true⟩⟩)]
    [.vString [120]] [.vString [120]]
    rfl rfl (by decide) (by decide) rfl rfl).1

theorem ConvertToType_err_pos (value : List Nat) (ty : GoType) (nm : String)
    (pos : Nat) (e : UErr) (h : ConvertToType value ty nm pos = .error e) :
    ∃ w tn r, e = .typeMismatch nm pos w tn r := by
  cases ty
  · simp only [ConvertToType] at h
    exact Except.noConfusion h
  · simp only [ConvertToType] at h
    rcases hci : convertToInt value 64 "int64" nm pos with e0 | n
    · rw [hci] at h
      have h2 : (Except.error e0 : Except UErr GoVal) = .error e := h
      injection h2 with h3
      subst h3
      simp only [convertToInt] at hci
      split at hci
      · exact Except.noConfusion hci
      · rcases hgp : goParseInt (trimSpace value) 64 with _ | n2
        · rw [hgp] at hci
          have h4 : (Except.error (UErr.typeMismatch nm pos (trimSpace value)
              "int64" "parse int failed") : Except UErr Int) = .error e0 := hci
          injection h4 with h5
          exact ⟨trimSpace value, "int64", "parse int failed", h5.symm⟩
        · rw [hgp] at hci
          exact Except.noConfusion hci
    · rw [hci] at h
      exact Except.noConfusion h
  · simp only [ConvertToType] at h
    rcases hcb : convertToBool value nm pos with e0 | b
    · rw [hcb] at h
      have h2 : (Except.error e0 : Except UErr GoVal) = .error e := h
      injection h2 with h3
      subst h3
      simp only [convertToBool] at hcb
      split at hcb
      · exact Except.noConfusion hcb
      · split at hcb
        · exact Except.noConfusion hcb
        · split at hcb
          · exact Except.noConfusion hcb
          · have h4 : (Except.error (UErr.typeMismatch nm pos
                (trimSpace (value.map lowerB)) "bool" "must be true/false") :
                Except UErr Bool) = .error e0 := hcb
            injection h4 with h5
            exact ⟨trimSpace (value.map lowerB), "bool", "must be true/false", h5.symm⟩
    · rw [hcb] at h
      exact Except.noConfusion h
  · simp only [ConvertToType] at h
    split at h <;> exact Except.noConfusion h

/-- C10: when `Unmarshal` stops with a `TypeMismatchError` at position `p`,
the target is left partially updated: every tagged field at a position before
`p` has already been overwritten with its decoded token value, every field at
a position at or beyond `p` still holds its prior value, and the partially
updated record is returned as is (no rollback). -/
theorem C10_partial_update
    (t : RType) (init : List GoVal) (data : List Nat)
    (toks : List Token) (fl : FieldsMap) (vals' : List GoVal)
    (nm : String) (p : Nat) (w : List Nat) (tn reason : String)
    (hparse : ParseRowLiteral data = .ok toks)
    (hfl : GetStructFields t = .ok fl)
    (hinj : ∀ a ∈ fl, ∀ b ∈ fl, a.1 ≠ b.1 → a.2.index ≠ b.2.index)
    (hbound : ∀ e ∈ fl, e.2.index < init.length)
    (herr : pass1 fl toks 0 init = (vals', some (.typeMismatch nm p w tn reason))) :
    Unmarshal t init data = (vals', some (.typeMismatch nm p w tn reason)) ∧
    1 ≤ p ∧ p ≤ toks.length ∧
    (∀ q fi, lookupF fl q = some fi → 1 ≤ q → q < p →
      ∃ v, (∀ hq : q - 1 < toks.length,
        ConvertToType (selOf (toks.get ⟨q - 1, hq⟩) fi) fi.typ fi.name q = .ok v) ∧
        vals'.getD fi.index (.vString []) = v) ∧
    (∀ q fi, lookupF fl q = some fi → q ≥ p →
      vals'.getD fi.index (.vString []) = init.getD fi.index (.vString [])) := by
  obtain ⟨k, hk, fi0, hfi0, hcv0, hlen, hun, hhit⟩ :=
    pass1_err fl toks 0 init vals' _ herr hbound
  obtain ⟨w2, tn2, r2, he⟩ := ConvertToType_err_pos _ _ _ _ _ hcv0
  injection he with h1 h2 h3 h4 h5
  have hp : p = k + 1 := by omega
  refine ⟨?_, by omega, by omega, ?_, ?_⟩
  · simp only [Unmarshal, hparse, hfl, herr]
  · intro q fi hlf h1q hqp
    have hqk : q - 1 < k := by omega
    have hlf' : lookupF fl (0 + (q - 1) + 1) = some fi := by
      rw [show 0 + (q - 1) + 1 = q from by omega]
      exact hlf
    have hmemq : (q, fi) ∈ fl := mem_of_lookupF fl q fi hlf
    have huniq : ∀ k2, k2 < k → k2 ≠ q - 1 → ∀ fi2,
        lookupF fl (0 + k2 + 1) = some fi2 → fi2.index ≠ fi.index := by
      intro k2 hk2 hne fi2 hfi2
      exact hinj (0 + k2 + 1, fi2) (mem_of_lookupF fl _ fi2 hfi2) (q, fi) hmemq (by omega)
    obtain ⟨v, hcvv, hv⟩ := hhit (q - 1) hqk fi hlf' huniq
    rw [show 0 + (q - 1) + 1 = q from by omega] at hcvv
    exact ⟨v, fun hq => hcvv, hv⟩
  · intro q fi hlf hge
    have hmemq : (q, fi) ∈ fl := mem_of_lookupF fl q fi hlf
    refine hun fi.index ?_
    intro kk hkk fi' hfi'
    exact hinj (0 + kk + 1, fi') (mem_of_lookupF fl _ fi' hfi') (q, fi) hmemq (by omega)

theorem C10_partial_update_witness :
    Unmarshal (.strct [⟨"A", true, some (strBytes "1"), .tString⟩,
        ⟨"N", true, some (strBytes "2"), .tInt64⟩])
      (freshRecord (.strct [⟨"A", true, some (strBytes "1"), .tString⟩,
        ⟨"N", true, some (strBytes "2"), .tInt64⟩]))
      (strBytes "(x,zz)") =
      ([.vString [120], .vInt64 0],
        some (.typeMismatch "N" 2 [122, 122] "int64" "parse int failed")) :=
  (C10_partial_update
    (.strct [⟨"A", true, some (strBytes "1"), .tString⟩,
      ⟨"N", true, some (strBytes "2"), .tInt64⟩])
    (freshRecord (.strct [⟨"A", true, some (strBytes "1"), .tString⟩,
      ⟨"N", true, some (strBytes "2"), .tInt64⟩]))
    (strBytes "(x,zz)")
    [⟨[120], [120], false, 1⟩, ⟨[122, 122], [122, 122], false, 3⟩]
    [(1, ⟨"A", 0, .tString, ⟨1, false, false, [], false⟩⟩),
     (2, ⟨"N", 1, .tInt64, ⟨2, false, false, [], false⟩⟩)]
    [.vString [120], .vInt64 0]
    "N" 2 [122, 122] "int64" "parse int failed"
    rfl rfl (by decide) (by decide) rfl).1

theorem insertCV_eq (f : PgxFuncs) :
    ∀ (fields : List PField) (n : Nat),
    insertCV f false fields n =
      ((fields.filter (fun fd => !fd.isSequence)).map (colname f),
       (List.range' n (fields.filter (fun fd => !fd.isSequence)).length).map nth) := by
  intro fields
  induction fields with
  | nil =>
    intro n
    rfl
  | cons fd rest ih =>
    intro n
    by_cases hs : fd.isSequence
    · simp [insertCV, hs, ih n]
    · simp [insertCV, hs, ih (n + 1), List.range'_succ]

theorem updateSets_eq (f : PgxFuncs) :
    ∀ (fields : List PField) (n : Nat),
    updateSets f "" fields n =
      (n + (fields.filter (fun fd => !fd.isPrimary)).length,
       List.zipWith (fun fd k => colname f fd ++ " = " ++ nth k)
         (fields.filter (fun fd => !fd.isPrimary))
         (List.range' n (fields.filter (fun fd => !fd.isPrimary)).length)) := by
  intro fields
  induction fields with
  | nil =>
    intro n
    simp [updateSets]
  | cons fd rest ih =>
    intro n
    by_cases hp : fd.isPrimary
    · simp [updateSets, hp, ih n]
    · simp [updateSets, hp, ih (n + 1), List.range'_succ]
      omega

theorem enumFromMap_nth (f : PgxFuncs) :
    ∀ (l : List PField) (n k : Nat),
    (List.enumFrom k l).map (fun e => colname f e.2 ++ " = " ++ nth (n + e.1)) =
      List.zipWith (fun fd j => colname f fd ++ " = " ++ "$" ++ toString j)
        l (List.range' (n + k + 1) l.length) := by
  intro l
  induction l with
  | nil =>
    intro n k
    rfl
  | cons a l ih =>
    intro n k
    simp only [List.enumFrom, List.map, List.length_cons, List.range'_succ, List.zipWith]
    refine congrArg₂ List.cons ?_ ?_
    · simp only [nth, String.append_assoc]
    · rw [ih n (k + 1), show n + (k + 1) + 1 = n + k + 1 + 1 from by omega]

theorem zipNth_shift (f : PgxFuncs) :
    ∀ (l : List PField) (n : Nat),
    List.zipWith (fun fd k => colname f fd ++ " = " ++ nth k) l
        (List.range' n l.length) =
      List.zipWith (fun fd j => colname f fd ++ " = " ++ "$" ++ toString j) l
        (List.range' (n + 1) l.length) := by
  intro l
  induction l with
  | nil =>
    intro n
    rfl
  | cons a l ih =>
    intro n
    simp only [List.length_cons, List.range'_succ, List.zipWith]
    refine congrArg₂ List.cons ?_ (ih (n + 1))
    simp only [nth, String.append_assoc]

/-- C3: for every table with at least one primary key, the insert's column
and placeholder lists each enumerate exactly the non-sequence columns (the
placeholders being `$1..$k` in column order); the update assigns `$1..$n` to
the non-primary-key columns and `$(n+1)..$(n+m)` to the primary keys in the
`WHERE` clause; the delete's placeholder indices are exactly `$1..$|P|` over
the primary keys in declared order; and the upsert's conflict tuple is the
primary-key name list in declared order. -/
theorem C3_statement_shapes (f : PgxFuncs) (t : PTable)
    (_hpk : t.primaryKeys ≠ []) :
    (insertCV f false t.fields 0 =
      ((t.fields.filter (fun fd => !fd.isSequence)).map (colname f),
       (List.range' 0 (t.fields.filter (fun fd => !fd.isSequence)).length).map nth) ∧
     (insertCV f false t.fields 0).1.length =
       (t.fields.filter (fun fd => !fd.isSequence)).length ∧
     (insertCV f false t.fields 0).2.length =
       (t.fields.filter (fun fd => !fd.isSequence)).length) ∧
    sqlstr_insert_base f false t =
      ["INSERT INTO " ++ schemafn f t.sqlName ++ " (",
       String.intercalate ", "
         ((t.fields.filter (fun fd => !fd.isSequence)).map (colname f)) ++ ") ",
       "VALUES (" ++ String.intercalate ", "
         ((List.range' 0 (t.fields.filter (fun fd => !fd.isSequence)).length).map nth)
         ++ ")"] ∧
    sqlstr_update f t =
      ["UPDATE " ++ schemafn f t.sqlName ++ " SET ",
       String.intercalate ", "
         (List.zipWith (fun fd j => colname f fd ++ " = " ++ "$" ++ toString j)
           (t.fields.filter (fun fd => !fd.isPrimary))
           (List.range' 1 (t.fields.filter (fun fd => !fd.isPrimary)).length)) ++ " ",
       "WHERE " ++ String.intercalate " AND "
         (List.zipWith (fun fd j => colname f fd ++ " = " ++ "$" ++ toString j)
           t.primaryKeys
           (List.range' ((t.fields.filter (fun fd => !fd.isPrimary)).length + 1)
             t.primaryKeys.length))] ∧
    sqlstr_delete f t =
      ["DELETE FROM " ++ schemafn f t.sqlName ++ " ",
       "WHERE " ++ String.intercalate " AND "
         (List.zipWith (fun fd j => colname f fd ++ " = " ++ "$" ++ toString j)
           t.primaryKeys (List.range' 1 t.primaryKeys.length))] ∧
    (sqlstr_upsert f t)[3]? =
      some (" ON CONFLICT (" ++
        String.intercalate ", " (t.primaryKeys.map (fun fd => fd.sqlName)) ++ ") DO ") := by
  have hins := insertCV_eq f t.fields 0
  refine ⟨⟨hins, by rw [hins]; simp, by rw [hins]; simp⟩, ?_, ?_, ?_, ?_⟩
  · simp only [sqlstr_insert_base, hins]
  · have h1 := updateSets_eq f t.fields 0
    have h2 := zipNth_shift f (t.fields.filter (fun fd => !fd.isPrimary)) 0
    have hwh : (List.enumFrom 0 t.primaryKeys).map
        (fun e => colname f e.2 ++ " = " ++
          nth ((t.fields.filter (fun fd => !fd.isPrimary)).length + e.1)) =
        List.zipWith (fun fd j => colname f fd ++ " = " ++ "$" ++ toString j)
          t.primaryKeys
          (List.range' ((t.fields.filter (fun fd => !fd.isPrimary)).length + 1)
            t.primaryKeys.length) := by
      have h3 := enumFromMap_nth f t.primaryKeys
        ((t.fields.filter (fun fd => !fd.isPrimary)).length) 0
      rw [h3, show (t.fields.filter (fun fd => !fd.isPrimary)).length + 0 + 1 =
        (t.fields.filter (fun fd => !fd.isPrimary)).length + 1 from by omega]
    simp only [sqlstr_update, sqlstr_update_base, h1, h2, List.enum, Nat.zero_add, hwh]
    rfl
  · have hdel : (List.enumFrom 0 t.primaryKeys).map
        (fun e => colname f e.2 ++ " = " ++ nth e.1) =
        List.zipWith (fun fd j => colname f fd ++ " = " ++ "$" ++ toString j)
          t.primaryKeys (List.range' 1 t.primaryKeys.length) := by
      have h0 : (List.enumFrom 0 t.primaryKeys).map
          (fun e => colname f e.2 ++ " = " ++ nth e.1) =
          (List.enumFrom 0 t.primaryKeys).map
            (fun e => colname f e.2 ++ " = " ++ nth (0 + e.1)) := by
        refine List.map_congr_left ?_
        intro e he
        rw [Nat.zero_add]
      rw [h0]
      exact enumFromMap_nth f t.primaryKeys 0 0
    simp only [sqlstr_delete, List.enum, hdel]
  · have hA : ∀ (rest : List String) (l1 l2 l3 c : String),
        (([l1, l2, l3] ++ [c]) ++ rest)[3]? = some c := by
      intro rest l1 l2 l3 c
      rw [List.getElem?_append_left (by simp)]
      rfl
    rcases hcv : insertCV f true t.fields 0 with ⟨cols, vals⟩
    simp only [sqlstr_upsert, sqlstr_insert_base, hcv]
    split
    · split
      · rw [List.append_assoc]
        exact hA _ _ _ _ _
      · exact hA _ _ _ _ _
    · split
      · exact hA _ _ _ _ _
      · rfl

theorem C3_statement_shapes_witness :
    sqlstr_delete ⟨"public", false, false, "postgres"⟩
      ⟨"books", [⟨"book_id", true, true⟩],
        [⟨"book_id", true, true⟩, ⟨"title", false, false⟩]⟩ =
      ["DELETE FROM public.books ", "WHERE book_id = $1"] :=
  (C3_statement_shapes ⟨"public", false, false, "postgres"⟩
    ⟨"books", [⟨"book_id", true, true⟩],
      [⟨"book_id", true, true⟩, ⟨"title", false, false⟩]⟩
    (by decide)).2.2.2.1

/-- C2 (code bug): for the two-column `books` table with sequence primary key
`book_id`, the upsert builder starts from the all-columns insert and appends
the conflict clause and `RETURNING`, but after `") DO "` it appends only the
assignment tail of the `EXCLUDED.`-prefixed update (the `update[1:]` slice
drops the `UPDATE <table> SET ` head line), so the emitted statement reads
`… ON CONFLICT (book_id) DO title = EXCLUDED.title …` and contains no
`UPDATE` keyword (a valid upsert requires `DO UPDATE SET`). -/
theorem C2_upsert_drops_update_set :
    sqlstr_upsert ⟨"public", false, false, "postgres"⟩
      ⟨"books", [⟨"book_id", true, true⟩],
        [⟨"book_id", true, true⟩, ⟨"title", false, false⟩]⟩ =
      ["INSERT INTO public.books (", "book_id, title) ", "VALUES ($1, $2)",
       " ON CONFLICT (book_id) DO ", "title = EXCLUDED.title ",
       " RETURNING book_id"] ∧
    sqlJoin (sqlstr_upsert ⟨"public", false, false, "postgres"⟩
      ⟨"books", [⟨"book_id", true, true⟩],
        [⟨"book_id", true, true⟩, ⟨"title", false, false⟩]⟩) =
      "INSERT INTO public.books (book_id, title) VALUES ($1, $2) ON CONFLICT (book_id) DO title = EXCLUDED.title  RETURNING book_id" ∧
    ¬ List.IsInfix ("UPDATE".toList)
      ((sqlJoin (sqlstr_upsert ⟨"public", false, false, "postgres"⟩
        ⟨"books", [⟨"book_id", true, true⟩],
          [⟨"book_id", true, true⟩, ⟨"title", false, false⟩]⟩)).toList) := by
  refine ⟨rfl, rfl, by decide⟩

theorem intToBytes_ne_NULL (n : Int) : intToBytes n ≠ strBytes "NULL" := by
  intro h
  have h78 : (78 : Nat) ∈ intToBytes n := by
    rw [h]
    decide
  rcases intToBytes_mem n 78 h78 with h1 | h2 <;> omega

theorem natToBytes_ne_NULL (n : Nat) : natToBytes n ≠ strBytes "NULL" := by
  intro h
  have h78 : (78 : Nat) ∈ natToBytes n := by
    rw [h]
    decide
  have := natToBytes_mem n 78 h78
  omega

theorem EscapeString_ne_NULL (s : List Nat) : EscapeString s ≠ strBytes "NULL" := by
  intro h
  have hN : strBytes "NULL" = [78, 85, 76, 76] := rfl
  rw [hN] at h
  have := congrArg List.head? h
  simp [EscapeString] at this

/-- C5: a recognized nullable wrapper encodes to the unquoted literal `NULL`
exactly when it is invalid (a valid nullable string holding the empty string
and a valid nullable time holding the zero time encode as the quoted empty
string `""`); decoding any wrapper kind from empty text or case-insensitive
`null` yields the invalid wrapper, and decoding from any other text marks the
result valid, per the inner kind (for strings, the text itself).  The float
and time renderings/parsers of the standard library are abstract parameters;
of the float rendering only `ff x ≠ "NULL"` is assumed. -/
theorem C5_null_wrapper_codec (pf tryTime : List Nat → Option Nat)
    (ff ft : Nat → List Nat) (hff : ∀ x, ff x ≠ strBytes "NULL")
    (nm : String) (pos : Nat) :
    (∀ v : NullVal, formatSQLNull ff ft v = strBytes "NULL" ↔ v.valid = false) ∧
    formatSQLNull ff ft (.nString true []) = [34, 34] ∧
    formatSQLNull ff ft (.nTime true 0) = [34, 34] ∧
    (∀ k value, value = [] ∨ eqFoldNull value = true →
      convertSQLNull pf tryTime k value nm pos = .ok (invalidOf k)) ∧
    (∀ k value v, value ≠ [] → eqFoldNull value = false →
      convertSQLNull pf tryTime k value nm pos = .ok v →
      v.valid = true ∧ (k = .wString → v = .nString true value)) := by
  refine ⟨?_, rfl, rfl, ?_, ?_⟩
  · intro v
    cases v with
    | nString valid s =>
      cases valid
      · simp [formatSQLNull, NullVal.valid]
      · simp [formatSQLNull, NullVal.valid, EscapeString_ne_NULL s]
    | nBool valid b =>
      cases valid
      · simp [formatSQLNull, NullVal.valid]
      · cases b <;> simp [formatSQLNull, NullVal.valid] <;> decide
    | nInt16 valid n =>
      cases valid
      · simp [formatSQLNull, NullVal.valid]
      · simp [formatSQLNull, NullVal.valid, intToBytes_ne_NULL n]
    | nInt32 valid n =>
      cases valid
      · simp [formatSQLNull, NullVal.valid]
      · simp [formatSQLNull, NullVal.valid, intToBytes_ne_NULL n]
    | nInt64 valid n =>
      cases valid
      · simp [formatSQLNull, NullVal.valid]
      · simp [formatSQLNull, NullVal.valid, intToBytes_ne_NULL n]
    | nByte valid n =>
      cases valid
      · simp [formatSQLNull, NullVal.valid]
      · simp [formatSQLNull, NullVal.valid, natToBytes_ne_NULL n]
    | nFloat64 valid x =>
      cases valid
      · simp [formatSQLNull, NullVal.valid]
      · simp [formatSQLNull, NullVal.valid, hff x]
    | nTime valid t =>
      cases valid
      · simp [formatSQLNull, NullVal.valid]
      · by_cases ht : t = 0
        · subst ht
          simp only [formatSQLNull, NullVal.valid, if_pos rfl, if_true]
          decide
        · simp [formatSQLNull, NullVal.valid, ht, EscapeString_ne_NULL (ft t)]
  · intro k value hor
    have hcond : (decide (value = []) || eqFoldNull value) = true := by
      rcases hor with rfl | h
      · simp
      · simp [h]
    simp [convertSQLNull, hcond]
  · intro k value v hv hn hconv
    have hcond : (decide (value = []) || eqFoldNull value) = false := by
      simp [hv, hn]
    cases k
    case wString =>
      simp [convertSQLNull, hcond] at hconv
      subst hconv
      exact ⟨rfl, fun _ => rfl⟩
    case wBool =>
      simp [convertSQLNull, hcond] at hconv
      rcases hcb : convertToBool value nm pos with e | b <;> simp [hcb] at hconv
      subst hconv
      exact ⟨rfl, fun hk => NullKind.noConfusion hk⟩
    case wInt16 =>
      simp [convertSQLNull, hcond] at hconv
      rcases hcb : convertToInt value 16 "int16" nm pos with e | n <;> simp [hcb] at hconv
      subst hconv
      exact ⟨rfl, fun hk => NullKind.noConfusion hk⟩
    case wInt32 =>
      simp [convertSQLNull, hcond] at hconv
      rcases hcb : convertToInt value 32 "int32" nm pos with e | n <;> simp [hcb] at hconv
      subst hconv
      exact ⟨rfl, fun hk => NullKind.noConfusion hk⟩
    case wInt64 =>
      simp [convertSQLNull, hcond] at hconv
      rcases hcb : convertToInt value 64 "int64" nm pos with e | n <;> simp [hcb] at hconv
      subst hconv
      exact ⟨rfl, fun hk => NullKind.noConfusion hk⟩
    case wByte =>
      simp [convertSQLNull, hcond] at hconv
      rcases hcb : convertToUint value 8 "uint8" nm pos with e | n <;> simp [hcb] at hconv
      subst hconv
      exact ⟨rfl, fun hk => NullKind.noConfusion hk⟩
    case wFloat64 =>
      simp [convertSQLNull, hcond] at hconv
      rcases hcb : convertToFloat pf value nm pos with e | x <;> simp [hcb] at hconv
      subst hconv
      exact ⟨rfl, fun hk => NullKind.noConfusion hk⟩
    case wTime =>
      simp [convertSQLNull, hcond] at hconv
      rcases hcb : convertToTime tryTime value nm pos with e | t <;> simp [hcb] at hconv
      subst hconv
      exact ⟨rfl, fun hk => NullKind.noConfusion hk⟩

theorem C5_null_wrapper_codec_witness :
    formatSQLNull (fun _ => [48]) (fun _ => [120]) (.nString true []) = [34, 34] :=
  (C5_null_wrapper_codec (fun _ => none) (fun _ => none)
    (fun _ => [48]) (fun _ => [120])
    (fun _ => (by decide : ([48] : List Nat) ≠ strBytes "NULL")) "f" 1).2.1

/-- C8 (counterexample): `GetStructFields` dereferences one pointer level, so
a pointer to a struct — whose own kind is pointer, not struct — succeeds
rather than failing with the not-struct error. -/
theorem C8_counterexample :
    GetStructFields (.ptr (.strct [])) = .ok [] ∧
    (∀ fs, (RType.ptr (.strct []) : RType) ≠ .strct fs) :=
  ⟨rfl, fun _ h => RType.noConfusion h⟩

/-- C8 (amended): `ParseTag` never returns options combining `required` with
`omitempty` or `required` with a default (the two concrete conflicts yield
the validation errors of the source); `GetStructFields` keeps positions
duplicate-free, failing with a `duplicate position` validation error on a
clash; and every type that is neither a struct nor a pointer to a struct
(one dereference) fails with the not-struct error. -/
theorem C8_tag_validation_amended :
    (∀ tv opts, ParseTag tv = .ok opts →
      (opts.required && opts.omitEmpty) = false ∧
      (opts.required && opts.hasDefault) = false) ∧
    ParseTag (strBytes "1,required,omitempty") =
      .error (.validation "" (strBytes "1,required,omitempty")
        "conflicting options required and omitempty") ∧
    ParseTag (strBytes "1,required,default=x") =
      .error (.validation "" (strBytes "1,required,default=x")
        "conflicting options required and default") ∧
    (∀ t fl, GetStructFields t = .ok fl → (fl.map (fun e => e.1)).Nodup) ∧
    GetStructFields (.strct
      [⟨"A", true, some (strBytes "1"), .tString⟩,
       ⟨"B", true, some (strBytes "1"), .tString⟩]) =
      .error (.validation "B" (strBytes "1") "duplicate position") ∧
    (∀ t : RType, (∀ fs, t ≠ .strct fs ∧ t ≠ .ptr (.strct fs)) →
      GetStructFields t = .error .notStruct) := by
  refine ⟨?_, rfl, rfl, fun t fl h => GetStructFields_nodup t fl h, rfl, ?_⟩
  · intro tv opts h
    simp only [ParseTag] at h
    split at h
    · have h2 : ({} : TagOptions) = opts := by
        injection h
      subst h2
      exact ⟨rfl, rfl⟩
    · split at h
      · exact Except.noConfusion h
      · split at h
        · exact Except.noConfusion h
        · split at h
          · exact Except.noConfusion h
          · split at h
            · exact Except.noConfusion h
            · split at h
              · exact Except.noConfusion h
              · split at h
                · exact Except.noConfusion h
                · rename_i hc1 hc2
                  have h2 := h
                  injection h2 with h3
                  subst h3
                  constructor
                  · exact Bool.not_eq_true _ ▸ Bool.eq_false_iff.mpr hc1
                  · exact Bool.not_eq_true _ ▸ Bool.eq_false_iff.mpr hc2
  · intro t ht
    cases t with
    | ptr t' =>
      cases t' with
      | ptr t'' => rfl
      | strct fs => exact absurd rfl (ht fs).2
      | other => rfl
    | strct fs => exact absurd rfl (ht fs).1
    | other => rfl

theorem C8_tag_validation_amended_witness :
    ((⟨1, false, true, [], false⟩ : TagOptions).required &&
      (⟨1, false, true, [], false⟩ : TagOptions).omitEmpty) = false ∧
    ((⟨1, false, true, [], false⟩ : TagOptions).required &&
      (⟨1, false, true, [], false⟩ : TagOptions).hasDefault) = false :=
  C8_tag_validation_amended.1 (strBytes "1,required")
    ⟨1, false, true, [], false⟩ rfl

theorem findKey_isSome (m : List (String × List PProc)) (nm : String) :
    (m.find? (fun e => e.1 = nm)).isSome ↔ nm ∈ m.map (fun e => e.1) := by
  induction m with
  | nil => simp
  | cons e m ih =>
    by_cases h : e.1 = nm
    · simp [List.find?, h]
    · have hd : (decide (e.1 = nm)) = false := decide_eq_false h
      simp [List.find?, hd, ih, h, Ne.symm h]

theorem mapKeys_dest (m : List (String × List PProc))
    (hnd : (m.map (fun e => e.1)).Nodup) :
    (m.map (fun e => e.1)).map (fun name =>
      procPrefix (((((m.find? (fun e => e.1 = name)).map (fun e => e.2)).getD
        []).head?.map (fun q => q.ptype)).getD "") ++ lowerStr name ++ extGo) =
    m.map (fun e =>
      procPrefix ((e.2.head?.map (fun q => q.ptype)).getD "") ++ lowerStr e.1 ++ extGo) := by
  induction m with
  | nil => rfl
  | cons a m ih =>
    obtain ⟨ha, hnd'⟩ := List.nodup_cons.mp hnd
    simp only [List.map_cons]
    refine congrArg₂ List.cons ?_ ?_
    · rw [List.find?_cons_of_pos _ (by simp)]
      rfl
    · rw [List.map_congr_left, ih hnd']
      intro name hname
      have hne : a.1 ≠ name := by
        intro hcontra
        subst hcontra
        exact ha hname
      rw [List.find?_cons_of_neg _ (by simp [hne])]

theorem convertProcFold_dests :
    ∀ (rest : List PProc) (m : List (String × List PProc)) (seen : List String),
    (m.map (fun e => e.1)).Nodup →
    (∀ e ∈ m, e.2 ≠ []) →
    (∀ x, x ∈ seen ↔ x ∈ m.map (fun e => e.1)) →
    ((convertProcFold rest m (m.map (fun e => e.1))).2).map
      (fun name =>
        procPrefix ((((((convertProcFold rest m (m.map (fun e => e.1))).1.find?
            (fun e => e.1 = name)).map (fun e => e.2)).getD []).head?.map
            (fun q => q.ptype)).getD "") ++ lowerStr name ++ extGo) =
    m.map (fun e =>
      procPrefix ((e.2.head?.map (fun q => q.ptype)).getD "") ++ lowerStr e.1 ++ extGo)
      ++ procFiles rest seen := by
  intro rest
  induction rest with
  | nil =>
    intro m seen hnd hne hseen
    simp only [convertProcFold, procFiles, List.append_nil]
    exact mapKeys_dest m hnd
  | cons p rest ih =>
    intro m seen hnd hne hseen
    simp only [convertProcFold]
    rcases hf : m.find? (fun e => e.1 = camelExport p.name) with _ | entry
    · -- a proc name seen for the first time
      simp only [hf]
      have hnm : camelExport p.name ∉ m.map (fun e => e.1) := by
        intro hmem
        have := (findKey_isSome m (camelExport p.name)).mpr hmem
        rw [hf] at this
        exact Bool.noConfusion this
      have hk : m.map (fun e => e.1) ++ [camelExport p.name] =
          (m ++ [(camelExport p.name, [p])]).map (fun e => e.1) := by
        simp
      rw [hk]
      have hnd' : ((m ++ [(camelExport p.name, [p])]).map (fun e => e.1)).Nodup := by
        rw [← hk]
        simp [List.nodup_append, hnd, hnm]
      have hne' : ∀ e ∈ m ++ [(camelExport p.name, [p])], e.2 ≠ [] := by
        intro e he
        rcases List.mem_append.mp he with he' | he'
        · exact hne e he'
        · simp at he'
          subst he'
          simp
      have hseen' : ∀ x, x ∈ camelExport p.name :: seen ↔
          x ∈ (m ++ [(camelExport p.name, [p])]).map (fun e => e.1) := by
        intro x
        rw [← hk]
        simp [hseen x]
        tauto
      rw [ih (m ++ [(camelExport p.name, [p])]) (camelExport p.name :: seen)
        hnd' hne' hseen']
      have hnotseen : camelExport p.name ∉ seen := by
        intro hcontra
        exact hnm ((hseen _).mp hcontra)
      simp only [procFiles, List.map_append]
      rw [if_neg hnotseen, List.append_assoc]
      rfl
    · -- a repeated proc name: the group grows, the head is stable
      simp only [hf]
      have hkeys : ((m.map (fun e =>
          if e.1 = camelExport p.name then (e.1, e.2 ++ [p]) else e)).map
            (fun e => e.1)) = m.map (fun e => e.1) := by
        rw [List.map_map]
        refine List.map_congr_left ?_
        intro e he
        by_cases h : e.1 = camelExport p.name <;> simp [h]
      rw [← hkeys]
      have hne' : ∀ e ∈ m.map (fun e =>
          if e.1 = camelExport p.name then (e.1, e.2 ++ [p]) else e), e.2 ≠ [] := by
        intro e he
        rcases List.mem_map.mp he with ⟨e0, he0, rfl⟩
        by_cases h : e0.1 = camelExport p.name <;> simp [h]
        exact hne e0 he0
      rw [ih _ seen (by rw [hkeys]; exact hnd) hne'
        (by intro x; rw [hkeys]; exact hseen x)]
      have hheads : (m.map (fun e =>
          if e.1 = camelExport p.name then (e.1, e.2 ++ [p]) else e)).map
          (fun e => procPrefix ((e.2.head?.map (fun q => q.ptype)).getD "") ++
            lowerStr e.1 ++ extGo) =
          m.map (fun e => procPrefix ((e.2.head?.map (fun q => q.ptype)).getD "") ++
            lowerStr e.1 ++ extGo) := by
        rw [List.map_map]
        refine List.map_congr_left ?_
        intro e he
        by_cases h : e.1 = camelExport p.name
        · rcases he2 : e.2 with _ | ⟨a, t⟩
          · exact absurd he2 (hne e he)
          · simp [h, he2]
        · simp [h]
      rw [hheads]
      have hmem : camelExport p.name ∈ seen := by
        refine (hseen _).mpr ?_
        refine (findKey_isSome m (camelExport p.name)).mp ?_
        rw [hf]
        rfl
      simp only [procFiles]
      rw [if_pos hmem]

theorem emitProcDests_eq_procFiles (ps : List PProc) :
    emitProcDests ps = procFiles ps [] := by
  have h := convertProcFold_dests ps [] [] (by simp) (by simp) (by simp)
  simp only [List.map_nil, List.nil_append] at h
  rcases hcp : convertProcFold ps [] [] with ⟨mf, orderf⟩
  rw [hcp] at h
  simp only [emitProcDests, hcp]
  exact h

/-- C9 (counterexample): in schema mode the table file name comes from
`strings.ToLower` of the exported camel of the singularized table name, not
from its snake-case: the table `book_tags` is emitted to `booktag.dbtpl.go`,
while the snake-case of its singularized name would give
`book_tag.dbtpl.go`. -/
theorem C9_counterexample :
    fileNamesSchema ⟨[], [], ["book_tags"]⟩ = ["booktag.dbtpl.go"] ∧
    snake (singularize "book_tags") ++ extGo = "book_tag.dbtpl.go" ∧
    ("booktag.dbtpl.go" : String) ≠ "book_tag.dbtpl.go" :=
  ⟨rfl, rfl, by decide⟩

/-- C9 (amended): `fileNames` agrees with the destinations `emitSchema`
emits — enums named by the lowered camel of the enum name, procs carrying
`sp_` (procedure) / `sf_` (function) prefixes with first-occurrence
deduplication, tables named by the lowered camel of the singularized table
name plus the extension — as the concrete schema shows. -/
theorem C9_file_destinations_amended (s : PSchema) :
    emitDests s = fileNamesSchema s ∧
    fileNamesSchema ⟨["my_enum"], [⟨"do_it", "procedure"⟩, ⟨"calc", "function"⟩],
      ["book_tags"]⟩ =
      ["myenum.dbtpl.go", "sp_doit.dbtpl.go", "sf_calc.dbtpl.go",
       "booktag.dbtpl.go"] := by
  refine ⟨?_, rfl⟩
  simp only [emitDests, fileNamesSchema, emitProcDests_eq_procFiles]
